import Mathlib

/-!
HeapTimer (src/code/timer/heaptimer.cpp)

A shallow embedding of the indexed min-heap of connection timers.

* `heap_` (a `std::vector<TimerNode>`) is a `List TimerNode`.
* `ref_` (a `std::unordered_map<int, size_t>`) is an association list `RefMap`.
* `size_t` arithmetic is arithmetic on `Nat` modulo `2 ^ 64`; the only place where
  wrap-around is reachable is the parent index `(i - 1) / 2` of `siftup_`.
* A read `heap_[k]` with `k` outside the vector is undefined behaviour in the source; it is
  modelled by the result `Except.error (Fault.outOfRange k size)`.  A failed `assert` is
  `Except.error Fault.assertFailed`.
* `Clock::now()` is an argument (`now`, or `clock k` for the `k`-th reading inside a loop),
  counted in clock ticks; `tpm` is the number of clock ticks per millisecond, so that
  `millisec(timeout)` is `timeout * tpm` ticks and `duration_cast<millisec>(d)` is
  `Int.tdiv d tpm`.
* A callback (`std::function<void()>`) is a label `cb : Nat`; invoking it is recorded by
  returning the node whose callback was invoked.
-/

/-- The ways in which a call can leave defined behaviour. -/
inductive Fault where
  /-- The read `heap_[index]` was evaluated with `index ≥ heap_.size() = size`. -/
  | outOfRange (index size : Nat)
  /-- An `assert` of the source failed. -/
  | assertFailed
  /-- A `push_back` on a vector that already holds `max_size()` elements
  (`std::length_error`). -/
  | lengthError
  /-- The loop was cut off by the iteration bound of the model. -/
  | noFuel
  deriving DecidableEq

/-- Modelled from the spec: `TimerNode` is declared in `heaptimer.h`, which is not among the
sources; the spec gives `TimerNode: {id, expires: monotonic instant, callback}`. -/
structure TimerNode where
  id : Int
  expires : Int
  cb : Nat
  deriving DecidableEq

/-- Modelled from the spec: `operator<` of `TimerNode` is declared in `heaptimer.h`; the spec
says "The heap compares by `expires` ascending". -/
def TimerNode.lt (a b : TimerNode) : Bool := decide (a.expires < b.expires)

/-- The contents of `std::unordered_map<int, size_t> ref_`. -/
abbrev RefMap := List (Int × Nat)

namespace RefMap

/-- The value stored for key `k`, if any. -/
def find? : RefMap → Int → Option Nat
  | [], _ => none
  | (k', v) :: m, k => if k' = k then some v else find? m k

/-- The value of `ref_.count(k)`. -/
def count (m : RefMap) (k : Int) : Nat := if (find? m k).isSome then 1 else 0

/-- The assignment `ref_[k] = v`: insert or overwrite. -/
def assign : RefMap → Int → Nat → RefMap
  | [], k, v => [(k, v)]
  | (k', v') :: m, k, v => if k' = k then (k, v) :: m else (k', v') :: assign m k v

/-- The call `ref_.erase(k)`. -/
def erase : RefMap → Int → RefMap
  | [], _ => []
  | (k', v') :: m, k => if k' = k then m else (k', v') :: erase m k

/-- The value of the expression `ref_[k]` for a key that is present (`0`, the
value-initialised entry, otherwise). -/
def idx (m : RefMap) (k : Int) : Nat := (find? m k).getD 0

end RefMap

/-- The state of a `HeapTimer` object. -/
structure HeapTimer where
  heap_ : List TimerNode
  ref_ : RefMap
  deriving DecidableEq

namespace HeapTimer

/-- The timer after construction (and after `clear`). -/
def empty : HeapTimer := ⟨[], []⟩

/-- An upper bound of `std::vector::max_size()`: no vector holds more than `PTRDIFF_MAX`
elements. -/
def maxSize : Nat := 2 ^ 63 - 1

/-- The value of `i - 1` for `size_t i`. -/
def decr (i : Nat) : Nat := (i + 2 ^ 64 - 1) % 2 ^ 64

/-- The read `heap_[k]`. -/
def rd (h : List TimerNode) (k : Nat) : Except Fault TimerNode :=
  match h[k]? with
  | some x => .ok x
  | none => .error (.outOfRange k h.length)

/-- The member function `HeapTimer::SwapNode_`; an index outside the vector is logged and
the state returned as it is. -/
def SwapNode_ (t : HeapTimer) (i j : Nat) : HeapTimer :=
  if t.heap_.length ≤ i then t
  else if t.heap_.length ≤ j then t
  else
    match t.heap_[i]?, t.heap_[j]? with
    | some a, some b =>
      ⟨(t.heap_.set i b).set j a, (t.ref_.assign b.id i).assign a.id j⟩
    | _, _ => t

/-- The loop of `HeapTimer::siftup_`; its guard `j >= 0` on a `size_t` is always true. -/
def siftupLoop : Nat → HeapTimer → Nat → Nat → Except Fault HeapTimer
  | 0, _, _, _ => .error .noFuel
  | fuel + 1, t, i, j =>
    match rd t.heap_ j, rd t.heap_ i with
    | .ok a, .ok b =>
      if a.lt b then .ok t
      else siftupLoop fuel (t.SwapNode_ i j) j (decr j / 2)
    | .error e, _ => .error e
    | _, .error e => .error e

/-- The member function `HeapTimer::siftup_`. -/
def siftup_ (t : HeapTimer) (i : Nat) : Except Fault HeapTimer :=
  if t.heap_.length = 0 then .error .assertFailed
  else siftupLoop (i + 1) t i (decr i / 2)

/-- The first statement of the body of the loop of `siftdown_`:
`if (j + 1 < n && heap_[j+1] < heap_[j]) j++`; the result is the new `j`. -/
def pickChild (t : HeapTimer) (n j : Nat) : Except Fault Nat :=
  if j + 1 < n then
    match rd t.heap_ (j + 1), rd t.heap_ j with
    | .ok r, .ok l => .ok (if r.lt l then j + 1 else j)
    | .error e, _ => .error e
    | _, .error e => .error e
  else .ok j

/-- The loop of `HeapTimer::siftdown_`, returning the final value of `i`. -/
def siftdownLoop : Nat → HeapTimer → Nat → Nat → Nat → Except Fault (Nat × HeapTimer)
  | 0, _, _, _, _ => .error .noFuel
  | fuel + 1, t, n, i, j =>
    if j < n then
      match pickChild t n j with
      | .error e => .error e
      | .ok j1 =>
        match rd t.heap_ i, rd t.heap_ j1 with
        | .ok x, .ok c =>
          if x.lt c then .ok (i, t)
          else siftdownLoop fuel (t.SwapNode_ i j1) n j1 (j1 * 2 + 1)
        | .error e, _ => .error e
        | _, .error e => .error e
    else .ok (i, t)

/-- The member function `HeapTimer::siftdown_`; the first component of the result is its
return value `i > index`. -/
def siftdown_ (t : HeapTimer) (index n : Nat) : Except Fault (Bool × HeapTimer) :=
  if ¬ (index < t.heap_.length) then .error .assertFailed
  else if ¬ (n ≤ t.heap_.length) then .error .assertFailed
  else
    match siftdownLoop (n + 1) t n index (index * 2 + 1) with
    | .ok (i, t1) => .ok (decide (index < i), t1)
    | .error e => .error e

/-- The member function `HeapTimer::add`, called when `Clock::now()` reads `now`. -/
def add (t : HeapTimer) (tpm : Nat) (now : Int) (id timeout : Int) (cb : Nat) :
    Except Fault HeapTimer :=
  if id < 0 then .ok t
  else if t.ref_.count id = 0 then
    let i := t.heap_.length
    if maxSize ≤ t.heap_.length then .error .lengthError
    else siftup_ ⟨t.heap_ ++ [⟨id, now + timeout * tpm, cb⟩], t.ref_.assign id i⟩ i
  else
    let i := t.ref_.idx id
    match rd t.heap_ i with
    | .error e => .error e
    | .ok nd =>
      let t1 : HeapTimer := ⟨t.heap_.set i ⟨nd.id, now + timeout * tpm, cb⟩, t.ref_⟩
      match siftdown_ t1 i t1.heap_.length with
      | .error e => .error e
      | .ok (moved, t2) => if !moved then siftup_ t2 i else .ok t2

/-- The member function `HeapTimer::del_`. -/
def del_ (t : HeapTimer) (index : Nat) : Except Fault HeapTimer :=
  if ¬ (t.heap_ ≠ [] ∧ index < t.heap_.length) then .error .assertFailed
  else
    let i := index
    let n := t.heap_.length - 1
    if ¬ (i ≤ n) then .error .assertFailed
    else
      let r : Except Fault HeapTimer :=
        if i < n then
          match siftdown_ (t.SwapNode_ i n) i n with
          | .error e => .error e
          | .ok (moved, t2) => if !moved then siftup_ t2 i else .ok t2
        else .ok t
      match r with
      | .error e => .error e
      | .ok t3 =>
        match t3.heap_.getLast? with
        | none => .error (.outOfRange 0 0)
        | some b => .ok ⟨t3.heap_.dropLast, t3.ref_.erase b.id⟩

/-- The member function `HeapTimer::doWork`; the second component lists the nodes whose
callback was invoked. -/
def doWork (t : HeapTimer) (id : Int) : Except Fault (HeapTimer × List TimerNode) :=
  if t.heap_ = [] ∨ t.ref_.count id = 0 then .ok (t, [])
  else
    let i := t.ref_.idx id
    match rd t.heap_ i with
    | .error e => .error e
    | .ok node =>
      match del_ t i with
      | .error e => .error e
      | .ok t1 => .ok (t1, [node])

/-- The member function `HeapTimer::adjust`, called when `Clock::now()` reads `now`. -/
def adjust (t : HeapTimer) (tpm : Nat) (now : Int) (id timeout : Int) :
    Except Fault HeapTimer :=
  if ¬ (t.heap_ ≠ [] ∧ 0 < t.ref_.count id) then .error .assertFailed
  else
    match rd t.heap_ (t.ref_.idx id) with
    | .error e => .error e
    | .ok nd =>
      let t1 : HeapTimer :=
        ⟨t.heap_.set (t.ref_.idx id) ⟨nd.id, now + timeout * tpm, nd.cb⟩, t.ref_⟩
      match siftdown_ t1 (t1.ref_.idx id) t1.heap_.length with
      | .error e => .error e
      | .ok (_, t2) => .ok t2

/-- The member function `HeapTimer::pop`. -/
def pop (t : HeapTimer) : Except Fault HeapTimer :=
  if t.heap_ = [] then .error .assertFailed else del_ t 0

/-- The loop of `HeapTimer::tick`; `clock k` is what `Clock::now()` reads in the iteration
numbered `k`.  The second component lists, in order, the nodes whose callback was invoked. -/
def tickLoop (tpm : Nat) (clock : Nat → Int) :
    Nat → Nat → HeapTimer → Except Fault (HeapTimer × List TimerNode)
  | 0, _, _ => .error .noFuel
  | fuel + 1, k, t =>
    match t.heap_ with
    | [] => .ok (t, [])
    | node :: _ =>
      if Int.tdiv (node.expires - clock k) tpm > 0 then .ok (t, [])
      else
        match pop t with
        | .error e => .error e
        | .ok t1 =>
          match tickLoop tpm clock fuel (k + 1) t1 with
          | .error e => .error e
          | .ok (t2, fired) => .ok (t2, node :: fired)

/-- The member function `HeapTimer::tick`. -/
def tick (t : HeapTimer) (tpm : Nat) (clock : Nat → Int) :
    Except Fault (HeapTimer × List TimerNode) :=
  if t.heap_ = [] then .ok (t, [])
  else tickLoop tpm clock (t.heap_.length + 1) 0 t

/-- The member function `HeapTimer::clear`. -/
def clear (_t : HeapTimer) : HeapTimer := ⟨[], []⟩

/-- Conversion of a 64-bit signed value to `size_t`. -/
def toSizeT (x : Int) : Nat := (x % 2 ^ 64).toNat

/-- Conversion of a `size_t` to `int`. -/
def toInt32 (n : Nat) : Int :=
  if n % 2 ^ 32 < 2 ^ 31 then (n % 2 ^ 32 : Nat) else (n % 2 ^ 32 : Nat) - 2 ^ 32

/-- The member function `HeapTimer::GetNextTick`: `clock` serves the readings of the inner
`tick()`, `now2` is the reading taken afterwards.  The local `res` is a `size_t`, hence a
`Nat` below `2 ^ 64`, and the comparison `res < 0` is the one on `Nat`. -/
def GetNextTick (t : HeapTimer) (tpm : Nat) (clock : Nat → Int) (now2 : Int) :
    Except Fault (Int × HeapTimer × List TimerNode) :=
  match tick t tpm clock with
  | .error e => .error e
  | .ok (t1, fired) =>
    let res0 : Nat := toSizeT (-1)
    let res : Nat :=
      match t1.heap_ with
      | [] => res0
      | front :: _ =>
        let res1 : Nat := toSizeT (Int.tdiv (front.expires - now2) tpm)
        if res1 < 0 then 0 else res1
    .ok (toInt32 res, t1, fired)

/-! ### Invariants -/

/-- The expiry stored at index `k` (`0` outside the vector). -/
def expAt (h : List TimerNode) (k : Nat) : Int :=
  match h[k]? with
  | some x => x.expires
  | none => 0

/-- H1: every non-root index carries an expiry that is at least its parent's. -/
def H1 (t : HeapTimer) : Prop :=
  ∀ i, i < t.heap_.length → 0 < i → expAt t.heap_ ((i - 1) / 2) ≤ expAt t.heap_ i

/-- H2: `ref_[k] = i` exactly when `heap_[i]` exists and has id `k`. -/
def H2 (t : HeapTimer) : Prop :=
  ∀ (k : Int) (i : Nat), t.ref_.find? k = some i ↔ ∃ nd, t.heap_[i]? = some nd ∧ nd.id = k

/-- H3: `ref_` has as many entries as `heap_` has nodes. -/
def H3 (t : HeapTimer) : Prop := t.ref_.length = t.heap_.length

/-- The vector is within `max_size()`. -/
def Sized (t : HeapTimer) : Prop := t.heap_.length ≤ maxSize

/-- A state of the timer: a vector within `max_size()` satisfying H1, H2 and H3. -/
structure WF (t : HeapTimer) : Prop where
  sized : Sized t
  h1 : H1 t
  h2 : H2 t
  h3 : H3 t

/-- The min-heap order on the first `n` values of `e`. -/
def HOrd (n : Nat) (e : Nat → Int) : Prop :=
  ∀ c, 0 < c → c < n → e ((c - 1) / 2) ≤ e c

/-- The heap order on the first `n` values with the edges at `i` left open: every edge that
does not touch `i` is in order, and the parent of `i` is below the children of `i`. -/
def Hole (n : Nat) (e : Nat → Int) (i : Nat) : Prop :=
  (∀ c, 0 < c → c < n → c ≠ i → (c - 1) / 2 ≠ i → e ((c - 1) / 2) ≤ e c) ∧
  (∀ c, 0 < c → c < n → (c - 1) / 2 = i → 0 < i → e ((i - 1) / 2) ≤ e c)

/-- The state of the loop of `siftdown_`: only the edges from `i` to its children are open. -/
def DownInv (n : Nat) (e : Nat → Int) (i : Nat) : Prop :=
  Hole n e i ∧ (0 < i → i < n → e ((i - 1) / 2) ≤ e i)

/-- The state of the loop of `siftup_`: only the edge from the parent of `i` to `i` is open. -/
def UpInv (n : Nat) (e : Nat → Int) (i : Nat) : Prop :=
  Hole n e i ∧ (∀ c, 0 < c → c < n → (c - 1) / 2 = i → e i ≤ e c)

/-- The values `e` after exchanging positions `i` and `j`. -/
def swapF (e : Nat → Int) (i j : Nat) : Nat → Int :=
  fun k => if k = j then e i else if k = i then e j else e k

/-! ### Sequences of calls -/

/-- A call of a public member function together with what `Clock::now()` reads during it. -/
inductive Op where
  | add (now id timeout : Int) (cb : Nat)
  | adjust (now id timeout : Int)
  | doWork (id : Int)
  | tick (clock : Nat → Int)
  | pop
  | clear

/-- The state after one call. -/
def step (tpm : Nat) (t : HeapTimer) : Op → Except Fault HeapTimer
  | .add now id timeout cb => t.add tpm now id timeout cb
  | .adjust now id timeout => t.adjust tpm now id timeout
  | .doWork id =>
    match t.doWork id with
    | .ok (t1, _) => .ok t1
    | .error e => .error e
  | .tick clock =>
    match t.tick tpm clock with
    | .ok (t1, _) => .ok t1
    | .error e => .error e
  | .pop => t.pop
  | .clear => .ok t.clear

/-- The state after a sequence of calls. -/
def run (tpm : Nat) : HeapTimer → List Op → Except Fault HeapTimer
  | t, [] => .ok t
  | t, op :: ops =>
    match step tpm t op with
    | .ok t1 => run tpm t1 ops
    | .error e => .error e

/-- Whether a call is not an `adjust` that moves the expiry of its node backwards. -/
def isExtension (tpm : Nat) (t : HeapTimer) : Op → Bool
  | .adjust now id timeout =>
    match t.ref_.find? id with
    | some i =>
      match t.heap_[i]? with
      | some nd => decide (nd.expires ≤ now + timeout * tpm)
      | none => true
    | none => true
  | _ => true

/-- Whether every `adjust` of a sequence of calls is an extension in the state it is
called in. -/
def extending (tpm : Nat) : HeapTimer → List Op → Bool
  | _, [] => true
  | t, op :: ops =>
    isExtension tpm t op &&
      match step tpm t op with
      | .ok t1 => extending tpm t1 ops
      | .error _ => true

/-! ### Sample states -/

/-- One timer. -/
def sample1 : HeapTimer := ⟨[⟨1, 10, 1⟩], [(1, 0)]⟩

/-- Two timers. -/
def sample2 : HeapTimer := ⟨[⟨1, 10, 1⟩, ⟨2, 20, 2⟩], [(1, 0), (2, 1)]⟩

/-- Three timers, two of them with the same expiry. -/
def sample3 : HeapTimer :=
  ⟨[⟨1, 10, 1⟩, ⟨2, 20, 2⟩, ⟨3, 20, 3⟩], [(1, 0), (2, 1), (3, 2)]⟩

/-- The consistency of `ref_` with `heap_` in the form used by the proofs: H2 split into its
two directions, H3, and the distinctness of the keys of the association list. -/
structure RefInv (t : HeapTimer) : Prop where
  fwd : ∀ i nd, t.heap_[i]? = some nd → t.ref_.find? nd.id = some i
  bwd : ∀ k v, t.ref_.find? k = some v → ∃ nd, t.heap_[v]? = some nd ∧ nd.id = k
  len : t.ref_.length = t.heap_.length
  nodup : (t.ref_.map Prod.fst).Nodup

/-! ### The heap order inside a subtree -/

/-- The proper descendants of position `r` in the implicit binary tree of the vector. -/
inductive Below (r : Nat) : Nat → Prop where
  | child (c : Nat) : 0 < c → (c - 1) / 2 = r → Below r c
  | step (c : Nat) : 0 < c → Below r ((c - 1) / 2) → Below r c

/-- The min-heap order on the first `n` values of `e`, for the edges that end in a position
satisfying `R`. -/
def HOrdIn (R : Nat → Prop) (n : Nat) (e : Nat → Int) : Prop :=
  ∀ c, R c → 0 < c → c < n → e ((c - 1) / 2) ≤ e c

/-- The state of the loop of `siftdown_` for the edges that end in a position satisfying `R`:
only the edges from `i` to its children are open. -/
def DownInvIn (R : Nat → Prop) (n : Nat) (e : Nat → Int) (i : Nat) : Prop :=
  (∀ c, R c → 0 < c → c < n → c ≠ i → (c - 1) / 2 ≠ i → e ((c - 1) / 2) ≤ e c) ∧
  (∀ c, R c → 0 < c → c < n → (c - 1) / 2 = i → R i → 0 < i → e ((i - 1) / 2) ≤ e c) ∧
  (R i → 0 < i → i < n → e ((i - 1) / 2) ≤ e i)

/-- Two timers with the later one at the root, as `add` leaves them before `siftup_`. -/
def sample2r : HeapTimer := ⟨[⟨1, 10, 1⟩, ⟨2, 5, 2⟩], [(1, 0), (2, 1)]⟩

end HeapTimer

/-!
BlockDeque (src/code/log/blockqueue.h), SafeQueue (src/code/pool/SafeQueue.h) and
ThreadPool (src/code/pool/threadpool.h)

Every member function holds the mutex of its object while it runs, so a call that returns is
one atomic step on the state.  A call that reaches `wait` or `wait_for` on a condition
variable gives up the mutex there; it is modelled by the outcome `Call.wait`, and the code it
runs once the wait has returned is a function of its own (`popWake`, `popTWake`), applied to
the state found at that moment.
-/

/-- The outcome of a call that can block: it returned `r`, or it is waiting on a condition
variable. -/
inductive Call (ρ : Type) where
  | done (r : ρ)
  | wait

/-- The state of a `BlockDeque<T>` object. -/
structure BlockDeque (α : Type) where
  deq_ : List α
  capacity_ : Nat
  IsClose_ : Bool

namespace BlockDeque

variable {α : Type}

/-- The constructor `BlockDeque(MaxCapacity)`; `none` when its `assert` fails. -/
def init (MaxCapacity : Nat) : Option (BlockDeque α) :=
  if 0 < MaxCapacity then some ⟨[], MaxCapacity, false⟩ else none

/-- The member function `close`. -/
def close (s : BlockDeque α) : BlockDeque α := ⟨[], s.capacity_, true⟩

/-- The member function `clear`. -/
def clear (s : BlockDeque α) : BlockDeque α := ⟨[], s.capacity_, s.IsClose_⟩

/-- The member function `empty`. -/
def empty (s : BlockDeque α) : Bool := s.deq_.isEmpty

/-- The member function `full`. -/
def full (s : BlockDeque α) : Bool := decide (s.capacity_ ≤ s.deq_.length)

/-- The member function `size`. -/
def size (s : BlockDeque α) : Nat := s.deq_.length

/-- The member function `capacity`. -/
def capacity (s : BlockDeque α) : Nat := s.capacity_

/-- The member function `push_back`, run from the head of its loop. -/
def push_back (s : BlockDeque α) (item : α) : Call (BlockDeque α) :=
  if s.capacity_ ≤ s.deq_.length then .wait
  else .done ⟨s.deq_ ++ [item], s.capacity_, s.IsClose_⟩

/-- The member function `push_front`, run from the head of its loop. -/
def push_front (s : BlockDeque α) (item : α) : Call (BlockDeque α) :=
  if s.capacity_ ≤ s.deq_.length then .wait
  else .done ⟨item :: s.deq_, s.capacity_, s.IsClose_⟩

/-- The member function `pop(T&)`, run from the head of its loop; the result is the return
value, the value of `item` and the state. -/
def pop (s : BlockDeque α) (_item : α) : Call (Bool × α × BlockDeque α) :=
  match s.deq_ with
  | [] => .wait
  | y :: q => .done (true, y, ⟨q, s.capacity_, s.IsClose_⟩)

/-- The rest of `pop(T&)` once `condConsumer_.wait` has returned. -/
def popWake (s : BlockDeque α) (item : α) : Call (Bool × α × BlockDeque α) :=
  if s.IsClose_ then .done (false, item, s) else pop s item

/-- The member function `pop(T&, int)`, run from the head of its loop. -/
def popT (s : BlockDeque α) (_item : α) (_timeout : Int) :
    Call (Bool × α × BlockDeque α) :=
  match s.deq_ with
  | [] => .wait
  | y :: q => .done (true, y, ⟨q, s.capacity_, s.IsClose_⟩)

/-- The rest of `pop(T&, int)` once `condConsumer_.wait_for` has returned, with
`cv_status::timeout` when `timedOut`. -/
def popTWake (s : BlockDeque α) (item : α) (timeout : Int) (timedOut : Bool) :
    Call (Bool × α × BlockDeque α) :=
  if timedOut then .done (false, item, s)
  else if s.IsClose_ then .done (false, item, s)
  else popT s item timeout

/-- A call that completes: a push, a pop of either kind that returns from the head of its
loop or after its wait, `clear` or `close`. -/
inductive Op (α : Type) where
  | push_back (item : α)
  | push_front (item : α)
  | pop (item : α)
  | popWake (item : α)
  | popT (item : α) (timeout : Int)
  | popTWake (item : α) (timeout : Int) (timedOut : Bool)
  | clear
  | close

/-- The state component of the outcome of a pop. -/
def afterPop : Call (Bool × α × BlockDeque α) → Option (BlockDeque α)
  | .done (_, _, s) => some s
  | .wait => none

/-- The state after a call has completed; `none` while it waits. -/
def step (s : BlockDeque α) : Op α → Option (BlockDeque α)
  | .push_back item =>
    match s.push_back item with
    | .done s1 => some s1
    | .wait => none
  | .push_front item =>
    match s.push_front item with
    | .done s1 => some s1
    | .wait => none
  | .pop item => afterPop (s.pop item)
  | .popWake item => afterPop (s.popWake item)
  | .popT item timeout => afterPop (s.popT item timeout)
  | .popTWake item timeout timedOut => afterPop (s.popTWake item timeout timedOut)
  | .clear => some s.clear
  | .close => some s.close

/-- The state after a sequence of completed calls. -/
def run : BlockDeque α → List (Op α) → Option (BlockDeque α)
  | s, [] => some s
  | s, op :: ops =>
    match step s op with
    | some s1 => run s1 ops
    | none => none

/-- The items handed out by `n` calls of `pop(item)` that return `true` without waiting, and
the state after them. -/
def popN (item : α) : Nat → BlockDeque α → Option (List α × BlockDeque α)
  | 0, s => some ([], s)
  | n + 1, s =>
    match s.pop item with
    | .done (true, y, s1) =>
      match popN item n s1 with
      | some (ys, s2) => some (y :: ys, s2)
      | none => none
    | _ => none

end BlockDeque

/-- The state of a `SafeQueue<T>` object. -/
structure SafeQueue (α : Type) where
  m_queue : List α

namespace SafeQueue

variable {α : Type}

/-- The member function `empty`. -/
def empty (s : SafeQueue α) : Bool := s.m_queue.isEmpty

/-- The member function `enqueue`. -/
def enqueue (s : SafeQueue α) (t : α) : SafeQueue α := ⟨s.m_queue ++ [t]⟩

/-- The member function `dequeue`; the result is the return value, the value of `t` and the
state. -/
def dequeue (s : SafeQueue α) (t : α) : Bool × α × SafeQueue α :=
  match s.m_queue with
  | [] => (false, t, s)
  | x :: q => (true, x, ⟨q⟩)

end SafeQueue

/-- The state of a `ThreadPool` object as far as its task queue goes; a task (the
`wrapper_func` closure) is a label. -/
structure ThreadPool where
  IsClosed : Bool
  m_queue : SafeQueue Nat

namespace ThreadPool

/-- The member function `AddTask`: it enqueues the wrapped task. -/
def AddTask (p : ThreadPool) (task : Nat) : ThreadPool :=
  ⟨p.IsClosed, p.m_queue.enqueue task⟩

/-- The statement `dequeued = m_pool->m_queue.dequeue(func)` of `ThreadWorker::operator()`;
the result is `dequeued`, `func` and the state. -/
def workerDequeue (p : ThreadPool) (func : Nat) : Bool × Nat × ThreadPool :=
  match p.m_queue.dequeue func with
  | (dequeued, f, q) => (dequeued, f, ⟨p.IsClosed, q⟩)

/-- A call of `AddTask`, or one pass of a worker through its dequeue statement. -/
inductive Op where
  | submit (task : Nat)
  | work

/-- The tasks handed to workers, in the order of the hand-over, and the state after a
sequence of calls. -/
def run : ThreadPool → List Op → List Nat × ThreadPool
  | p, [] => ([], p)
  | p, .submit task :: ops => run (p.AddTask task) ops
  | p, .work :: ops =>
    match p.workerDequeue 0 with
    | (true, f, p1) => (f :: (run p1 ops).1, (run p1 ops).2)
    | (false, _, p1) => run p1 ops

end ThreadPool

/-! ## Theorems -/

namespace RefMap

theorem find?_assign_self (m : RefMap) (k : Int) (v : Nat) : find? (assign m k v) k = some v := by
  induction m with
  | nil => simp [assign, find?]
  | cons p m ih =>
    obtain ⟨k', v'⟩ := p
    by_cases h : k' = k
    · simp [assign, find?, h]
    · simp [assign, find?, h, ih]

theorem find?_assign_ne (m : RefMap) {k k' : Int} (v : Nat) (h : k' ≠ k) :
    find? (assign m k v) k' = find? m k' := by
  induction m with
  | nil => simp [assign, find?, Ne.symm h]
  | cons p m ih =>
    obtain ⟨k1, v1⟩ := p
    by_cases h1 : k1 = k
    · subst h1
      simp [assign, find?, Ne.symm h]
    · simp [assign, find?, h1, ih]

theorem mem_keys_of_find? {m : RefMap} {k : Int} {v : Nat} (h : find? m k = some v) :
    k ∈ m.map Prod.fst := by
  induction m with
  | nil => simp [find?] at h
  | cons p m ih =>
    obtain ⟨k1, v1⟩ := p
    by_cases h1 : k1 = k
    · simp [h1]
    · simp only [find?, h1, if_false] at h
      simp [ih h]

theorem find?_of_mem_keys {m : RefMap} {k : Int} (h : k ∈ m.map Prod.fst) :
    ∃ v, find? m k = some v := by
  induction m with
  | nil => simp at h
  | cons p m ih =>
    obtain ⟨k1, v1⟩ := p
    by_cases h1 : k1 = k
    · exact ⟨v1, by simp [find?, h1]⟩
    · have : k ∈ m.map Prod.fst := by
        simp only [List.map_cons, List.mem_cons] at h
        rcases h with h | h
        · exact absurd h.symm h1
        · exact h
      obtain ⟨v, hv⟩ := ih this
      exact ⟨v, by simp [find?, h1, hv]⟩

theorem keys_assign_of_find? {m : RefMap} {k : Int} {v' : Nat} (v : Nat)
    (h : find? m k = some v') : (assign m k v).map Prod.fst = m.map Prod.fst := by
  induction m with
  | nil => simp [find?] at h
  | cons p m ih =>
    obtain ⟨k1, v1⟩ := p
    by_cases h1 : k1 = k
    · simp [assign, h1]
    · simp only [find?, h1, if_false] at h
      simp [assign, h1, ih h]

theorem keys_assign_of_none {m : RefMap} {k : Int} (v : Nat)
    (h : find? m k = none) : (assign m k v).map Prod.fst = m.map Prod.fst ++ [k] := by
  induction m with
  | nil => simp [assign]
  | cons p m ih =>
    obtain ⟨k1, v1⟩ := p
    by_cases h1 : k1 = k
    · simp [find?, h1] at h
    · simp only [find?, h1, if_false] at h
      simp [assign, h1, ih h]

theorem find?_erase_ne (m : RefMap) {k k' : Int} (h : k' ≠ k) :
    find? (erase m k) k' = find? m k' := by
  induction m with
  | nil => simp [erase]
  | cons p m ih =>
    obtain ⟨k1, v1⟩ := p
    by_cases h1 : k1 = k
    · subst h1
      simp [erase, find?, Ne.symm h]
    · simp [erase, find?, h1, ih]

theorem find?_erase_self {m : RefMap} (k : Int) (hn : (m.map Prod.fst).Nodup) :
    find? (erase m k) k = none := by
  induction m with
  | nil => simp [erase, find?]
  | cons p m ih =>
    obtain ⟨k1, v1⟩ := p
    simp only [List.map_cons, List.nodup_cons] at hn
    by_cases h1 : k1 = k
    · subst h1
      simp only [erase, if_true]
      cases hf : find? m k1 with
      | none => rfl
      | some v => exact absurd (mem_keys_of_find? hf) hn.1
    · simp [erase, find?, h1, ih hn.2]

theorem keys_erase_sublist (m : RefMap) (k : Int) :
    ((erase m k).map Prod.fst).Sublist (m.map Prod.fst) := by
  induction m with
  | nil => simp [erase]
  | cons p m ih =>
    obtain ⟨k1, v1⟩ := p
    by_cases h1 : k1 = k
    · simp [erase, h1]
    · simp only [erase, h1, if_false, List.map_cons]
      exact ih.cons₂ _

theorem length_erase_of_find? {m : RefMap} {k : Int} {v : Nat} (h : find? m k = some v) :
    (erase m k).length + 1 = m.length := by
  induction m with
  | nil => simp [find?] at h
  | cons p m ih =>
    obtain ⟨k1, v1⟩ := p
    by_cases h1 : k1 = k
    · simp [erase, h1]
    · simp only [find?, h1, if_false] at h
      simp [erase, h1, ih h]

end RefMap

namespace HeapTimer

theorem hord_of_downInv {n : Nat} {e : Nat → Int} {i : Nat} (h : DownInv n e i)
    (hc : ∀ c, 0 < c → c < n → (c - 1) / 2 = i → e i ≤ e c) : HOrd n e := by
  intro c h0 hn
  by_cases h1 : (c - 1) / 2 = i
  · rw [h1]; exact hc c h0 hn h1
  · by_cases h2 : c = i
    · subst h2; exact h.2 h0 hn
    · exact h.1.1 c h0 hn h2 h1

theorem hord_of_upInv {n : Nat} {e : Nat → Int} {i : Nat} (h : UpInv n e i)
    (hp : 0 < i → i < n → e ((i - 1) / 2) ≤ e i) : HOrd n e := by
  intro c h0 hn
  by_cases h1 : (c - 1) / 2 = i
  · rw [h1]; exact h.2 c h0 hn h1
  · by_cases h2 : c = i
    · subst h2; exact hp h0 hn
    · exact h.1.1 c h0 hn h2 h1

theorem hole_of_hord {n : Nat} {e : Nat → Int} (h : HOrd n e) (i : Nat) : Hole n e i := by
  refine ⟨fun c h0 hn _ _ => h c h0 hn, fun c h0 hn hp hi => ?_⟩
  have h1 := h c h0 hn
  have h2 := h i hi (by omega)
  rw [hp] at h1
  omega

theorem downInv_step {n : Nat} {e : Nat → Int} {i j : Nat} (h : DownInv n e i)
    (hj0 : 0 < j) (hjn : j < n) (hji : (j - 1) / 2 = i)
    (hmin : ∀ c, 0 < c → c < n → (c - 1) / 2 = i → e j ≤ e c) (hle : e j ≤ e i) :
    DownInv n (swapF e i j) j := by
  obtain ⟨⟨ha, hb⟩, hc⟩ := h
  have hij : i < j := by omega
  refine ⟨⟨fun c h0 hn hcj hpj => ?_, fun c h0 hn hp _ => ?_⟩, fun _ _ => ?_⟩
  · -- an edge touching neither end at `j`
    by_cases hci : c = i
    · subst hci
      have hpi : (c - 1) / 2 ≠ c := by omega
      have := hb j hj0 hjn hji h0
      simp only [swapF, hcj, hpj, hpi, if_false, if_true]
      exact this
    · by_cases hpi : (c - 1) / 2 = i
      · have := hmin c h0 hn hpi
        have hii : i ≠ j := by omega
        simp only [swapF, hcj, hci, hpi, hii, if_false, if_true]
        exact this
      · have := ha c h0 hn hci hpi
        simp only [swapF, hcj, hci, hpj, hpi, if_false]
        exact this
  · -- the parent of `j` against the children of `j`
    have hcj : c ≠ j := by omega
    have hci : c ≠ i := by omega
    have := ha c h0 hn hci (by omega)
    rw [hp] at this
    simp only [swapF, hji, hcj, hci, if_false, if_true]
    have hii : i ≠ j := by omega
    simp only [hii, if_false]
    exact this
  · have hii : i ≠ j := by omega
    simp only [swapF, hji, hii, if_false, if_true]
    exact hle

theorem upInv_step {n : Nat} {e : Nat → Int} {i : Nat} (h : UpInv n e i)
    (hi0 : 0 < i) (hin : i < n) (hle : e i ≤ e ((i - 1) / 2)) :
    UpInv n (swapF e i ((i - 1) / 2)) ((i - 1) / 2) := by
  obtain ⟨⟨ha, hb⟩, hc⟩ := h
  have hpi : (i - 1) / 2 < i := by omega
  have hne : i ≠ (i - 1) / 2 := by omega
  refine ⟨⟨fun c h0 hn hcp hpp => ?_, fun c h0 hn hp hp0 => ?_⟩, fun c h0 hn hp => ?_⟩
  · by_cases hci : c = i
    · exact absurd (by rw [hci]) hpp
    · by_cases hq : (c - 1) / 2 = i
      · have := hb c h0 hn hq hi0
        simp only [swapF, hcp, hci, hq, hne, if_false, if_true]
        exact this
      · have := ha c h0 hn hci hq
        simp only [swapF, hcp, hci, hq, hpp, if_false]
        exact this
  · -- the grandparent against the children of the parent
    have hg1 : ((i - 1) / 2 - 1) / 2 ≠ (i - 1) / 2 := by omega
    have hg2 : ((i - 1) / 2 - 1) / 2 ≠ i := by omega
    have hcp : c ≠ (i - 1) / 2 := by omega
    have hg := ha ((i - 1) / 2) hp0 (by omega) (by omega) (by omega)
    by_cases hci : c = i
    · simp only [swapF, hg1, hg2, hci, hne, if_false, if_true]
      exact hg
    · have := ha c h0 hn hci (by omega)
      rw [hp] at this
      simp only [swapF, hg1, hg2, hcp, hci, if_false]
      omega
  · have hcp : c ≠ (i - 1) / 2 := by omega
    by_cases hci : c = i
    · simp only [swapF, hci, hne, if_false, if_true]
      exact hle
    · have := ha c h0 hn hci (by omega)
      rw [hp] at this
      simp only [swapF, hcp, hci, if_false, if_true]
      omega

/-! ### Exchanging two positions of the vector -/

theorem getElem?_swap {h : List TimerNode} {i j : Nat} {a b : TimerNode}
    (hi : h[i]? = some a) (hj : h[j]? = some b) (k : Nat) :
    ((h.set i b).set j a)[k]? = if k = j then some a else if k = i then some b else h[k]? := by
  have hil : i < h.length := (List.getElem?_eq_some_iff.1 hi).1
  have hjl : j < h.length := (List.getElem?_eq_some_iff.1 hj).1
  by_cases hkj : k = j
  · subst hkj
    simp [hjl]
  · by_cases hki : k = i
    · subst hki
      simp [hkj, Ne.symm hkj, hil]
    · simp [hkj, hki, Ne.symm hkj, Ne.symm hki]

theorem perm_swap {h : List TimerNode} {i j : Nat} {a b : TimerNode}
    (hi : h[i]? = some a) (hj : h[j]? = some b) : ((h.set i b).set j a).Perm h := by
  obtain ⟨hil, hia⟩ := List.getElem?_eq_some_iff.1 hi
  obtain ⟨hjl, hjb⟩ := List.getElem?_eq_some_iff.1 hj
  by_cases hij : i = j
  · subst hij
    have hab : a = b := by rw [← hia, ← hjb]
    subst hab
    have h1 : h.set i a = h := by
      apply List.ext_getElem? ; intro k
      by_cases hk : i = k
      · subst hk; simp [hil, hi]
      · simp [hk]
    rw [h1, h1]
  · rw [List.perm_iff_count]
    intro x
    have hjl2 : j < (h.set i b).length := by simpa using hjl
    have hjb2 : (h.set i b)[j] = b := by
      rw [List.getElem_set]; simp [hij, hjb]
    rw [List.count_set a x _ j hjl2, List.count_set b x h i hil, hjb2, hia]
    have hmem : a ∈ h := by rw [← hia]; exact List.getElem_mem hil
    have hpos : (a == x) = true → 0 < h.count x := by
      intro hax
      have : a = x := by simpa using hax
      subst this
      exact List.count_pos_iff.2 hmem
    by_cases hax : (a == x) = true <;> by_cases hbx : (b == x) = true
    · have := hpos hax; simp only [hax, hbx, if_true]; omega
    · have := hpos hax; simp only [hax, hbx, if_true]; simp; omega
    · simp only [hax, hbx, if_true]; simp
    · simp only [hax, hbx]; simp

theorem expAt_swap {h : List TimerNode} {i j : Nat} {a b : TimerNode}
    (hi : h[i]? = some a) (hj : h[j]? = some b) :
    expAt ((h.set i b).set j a) = swapF (expAt h) i j := by
  funext k
  simp only [expAt, swapF, getElem?_swap hi hj k]
  by_cases hkj : k = j
  · simp [hkj, hi]
  · by_cases hki : k = i
    · have hij : i ≠ j := fun hh => hkj (hki.trans hh)
      simp [hki, hij, hj]
    · simp [hkj, hki]

theorem SwapNode_eq {t : HeapTimer} {i j : Nat} {a b : TimerNode}
    (hi : t.heap_[i]? = some a) (hj : t.heap_[j]? = some b) :
    t.SwapNode_ i j = ⟨(t.heap_.set i b).set j a, (t.ref_.assign b.id i).assign a.id j⟩ := by
  have hil : i < t.heap_.length := (List.getElem?_eq_some_iff.1 hi).1
  have hjl : j < t.heap_.length := (List.getElem?_eq_some_iff.1 hj).1
  simp only [SwapNode_, Nat.not_le.2 hil, Nat.not_le.2 hjl, if_false, hi, hj]

theorem RefInv.idx_inj {t : HeapTimer} (r : RefInv t) {i j : Nat} {a b : TimerNode}
    (hi : t.heap_[i]? = some a) (hj : t.heap_[j]? = some b) (hid : a.id = b.id) : i = j := by
  have h1 := r.fwd i a hi
  have h2 := r.fwd j b hj
  rw [hid, h2] at h1
  exact (Option.some.inj h1).symm

theorem RefInv.swap {t : HeapTimer} (r : RefInv t) {i j : Nat} {a b : TimerNode}
    (hi : t.heap_[i]? = some a) (hj : t.heap_[j]? = some b) : RefInv (t.SwapNode_ i j) := by
  rw [SwapNode_eq hi hj]
  have hfa := r.fwd i a hi
  have hfb := r.fwd j b hj
  have hk1 : ((t.ref_.assign b.id i).map Prod.fst) = t.ref_.map Prod.fst :=
    RefMap.keys_assign_of_find? i hfb
  have hfa1 : ∃ v, RefMap.find? (t.ref_.assign b.id i) a.id = some v := by
    by_cases hab : a.id = b.id
    · rw [hab]; exact ⟨i, RefMap.find?_assign_self _ _ _⟩
    · rw [RefMap.find?_assign_ne _ _ hab]; exact ⟨i, hfa⟩
  obtain ⟨v1, hv1⟩ := hfa1
  have hk2 : (((t.ref_.assign b.id i).assign a.id j).map Prod.fst) = t.ref_.map Prod.fst := by
    rw [RefMap.keys_assign_of_find? j hv1, hk1]
  refine ⟨?_, ?_, ?_, ?_⟩
  · intro k nd hk
    simp only [getElem?_swap hi hj k] at hk
    by_cases hkj : k = j
    · simp only [hkj, if_true, Option.some.injEq] at hk
      subst hk; subst hkj
      exact RefMap.find?_assign_self _ _ _
    · by_cases hki : k = i
      · have hij : i ≠ j := fun hh => hkj (hki.trans hh)
        simp only [hki, hij, if_false, if_true, Option.some.injEq] at hk
        subst hk; subst hki
        have hne : b.id ≠ a.id := fun hh => hkj (r.idx_inj hi hj hh.symm)
        simp only []
        rw [RefMap.find?_assign_ne _ _ hne]
        exact RefMap.find?_assign_self _ _ _
      · simp only [hkj, hki, if_false] at hk
        have h1 : nd.id ≠ a.id := fun hh => hki (r.idx_inj hk hi hh)
        have h2 : nd.id ≠ b.id := fun hh => hkj (r.idx_inj hk hj hh)
        simp only []
        rw [RefMap.find?_assign_ne _ _ h1, RefMap.find?_assign_ne _ _ h2]
        exact r.fwd k nd hk
  · intro k v hk
    simp only [] at hk ⊢
    by_cases hka : k = a.id
    · subst hka
      rw [RefMap.find?_assign_self] at hk
      have : v = j := (Option.some.inj hk).symm
      subst this
      exact ⟨a, by simp [getElem?_swap hi hj], rfl⟩
    · rw [RefMap.find?_assign_ne _ _ hka] at hk
      by_cases hkb : k = b.id
      · subst hkb
        rw [RefMap.find?_assign_self] at hk
        have : v = i := (Option.some.inj hk).symm
        subst this
        have hij : v ≠ j := fun hh => hka (by
          subst hh; rw [hi] at hj; rw [Option.some.inj hj])
        exact ⟨b, by simp [getElem?_swap hi hj, hij], rfl⟩
      · rw [RefMap.find?_assign_ne _ _ hkb] at hk
        obtain ⟨nd, hnd, hid⟩ := r.bwd k v hk
        have hvj : v ≠ j := fun hh => hkb (by
          subst hh; rw [hnd] at hj; rw [← hid, Option.some.inj hj])
        have hvi : v ≠ i := fun hh => hka (by
          subst hh; rw [hnd] at hi; rw [← hid, Option.some.inj hi])
        exact ⟨nd, by simp [getElem?_swap hi hj, hvj, hvi, hnd], hid⟩
  · have h1 := congrArg List.length hk2
    simp only [List.length_map] at h1
    simp only [List.length_set]
    rw [h1]; exact r.len
  · simp only []
    rw [hk2]; exact r.nodup

/-! ### `siftdown_` -/

theorem rd_of_lt {h : List TimerNode} {k : Nat} (hk : k < h.length) :
    ∃ x, h[k]? = some x ∧ rd h k = .ok x ∧ expAt h k = x.expires := by
  refine ⟨h[k], List.getElem?_eq_getElem hk, ?_, ?_⟩
  · simp [rd, List.getElem?_eq_getElem hk]
  · simp [expAt, List.getElem?_eq_getElem hk]

theorem lt_iff_expires (a b : TimerNode) : a.lt b = true ↔ a.expires < b.expires := by
  simp [TimerNode.lt]

theorem pickChild_spec {t : HeapTimer} {n j : Nat} (hj : j < n) (hn : n ≤ t.heap_.length) :
    ∃ j1, pickChild t n j = .ok j1 ∧ (j1 = j ∨ (j1 = j + 1 ∧ j + 1 < n)) ∧
      expAt t.heap_ j1 ≤ expAt t.heap_ j ∧
      (j + 1 < n → expAt t.heap_ j1 ≤ expAt t.heap_ (j + 1)) := by
  obtain ⟨l, _, hl2, hl3⟩ := rd_of_lt (Nat.lt_of_lt_of_le hj hn)
  by_cases h1 : j + 1 < n
  · obtain ⟨r, _, hr2, hr3⟩ := rd_of_lt (Nat.lt_of_lt_of_le h1 hn)
    by_cases hlt : r.lt l = true
    · refine ⟨j + 1, ?_, Or.inr ⟨rfl, h1⟩, ?_, fun _ => le_refl _⟩
      · simp [pickChild, h1, hl2, hr2, hlt]
      · have := (lt_iff_expires r l).1 hlt
        rw [hl3, hr3]; omega
    · refine ⟨j, ?_, Or.inl rfl, le_refl _, fun _ => ?_⟩
      · simp [pickChild, h1, hl2, hr2, hlt]
      · have : ¬ r.expires < l.expires := fun hh => hlt ((lt_iff_expires r l).2 hh)
        rw [hl3, hr3]; omega
  · exact ⟨j, by simp [pickChild, h1], Or.inl rfl, le_refl _, fun hh => absurd hh h1⟩

theorem siftdownLoop_spec (fuel : Nat) : ∀ (t : HeapTimer) (n i : Nat), i < n →
    n ≤ t.heap_.length → n - i ≤ fuel → RefInv t →
    ∃ i1 t1, siftdownLoop fuel t n i (i * 2 + 1) = .ok (i1, t1) ∧ i ≤ i1 ∧ RefInv t1 ∧
      t1.heap_.Perm t.heap_ ∧
      (∀ k, k < i ∨ n ≤ k → t1.heap_[k]? = t.heap_[k]?) ∧
      (i1 = i → t1 = t ∧
        ∀ c, 0 < c → c < n → (c - 1) / 2 = i → expAt t.heap_ i < expAt t.heap_ c) ∧
      (i < i1 → ∃ c, 0 < c ∧ c < n ∧ (c - 1) / 2 = i ∧ expAt t.heap_ c ≤ expAt t.heap_ i) ∧
      (DownInv n (expAt t.heap_) i → HOrd n (expAt t1.heap_)) := by
  induction fuel with
  | zero => intro t n i hi _ hf _; omega
  | succ fuel ih =>
    intro t n i hi hn hf r
    by_cases hj : i * 2 + 1 < n
    · obtain ⟨j1, hp1, hp2, hp3, hp4⟩ := pickChild_spec hj hn
      have hj1n : j1 < n := by omega
      have hj1p : (j1 - 1) / 2 = i := by omega
      have hmin : ∀ c, 0 < c → c < n → (c - 1) / 2 = i →
          expAt t.heap_ j1 ≤ expAt t.heap_ c := by
        intro c h0 hcn hcp
        have hc : c = i * 2 + 1 ∨ c = i * 2 + 1 + 1 := by omega
        rcases hc with hc | hc
        · rw [hc]; exact hp3
        · rw [hc]; exact hp4 (by omega)
      obtain ⟨x, hx1, hx2, hx3⟩ := rd_of_lt (Nat.lt_of_lt_of_le hi hn)
      obtain ⟨c, hc1, hc2, hc3⟩ := rd_of_lt (Nat.lt_of_lt_of_le hj1n hn)
      by_cases hlt : x.lt c = true
      · have hlt1 : expAt t.heap_ i < expAt t.heap_ j1 := by
          rw [hx3, hc3]; exact (lt_iff_expires x c).1 hlt
        refine ⟨i, t, ?_, le_refl _, r, List.Perm.refl _, fun _ _ => rfl, fun _ => ⟨rfl, ?_⟩,
          fun hh => absurd hh (lt_irrefl _), fun hd => ?_⟩
        · simp [siftdownLoop, hj, hp1, hx2, hc2, hlt]
        · intro c1 h0 hcn hcp
          have := hmin c1 h0 hcn hcp
          omega
        · refine hord_of_downInv hd (fun c1 h0 hcn hcp => ?_)
          have := hmin c1 h0 hcn hcp
          omega
      · have hle : expAt t.heap_ j1 ≤ expAt t.heap_ i := by
          have : ¬ x.expires < c.expires := fun hh => hlt ((lt_iff_expires x c).2 hh)
          rw [hx3, hc3]; omega
        have hsw := SwapNode_eq hx1 hc1
        have hlen : (t.SwapNode_ i j1).heap_.length = t.heap_.length := by
          rw [hsw]; simp
        obtain ⟨i1, t1, e1, e2, e3, e4, e5, _, _, e8⟩ :=
          ih (t.SwapNode_ i j1) n j1 hj1n (by rw [hlen]; exact hn) (by omega) (r.swap hx1 hc1)
        refine ⟨i1, t1, ?_, by omega, e3, ?_, ?_, fun hh => by omega,
          fun _ => ⟨j1, by omega, hj1n, hj1p, hle⟩, fun hd => ?_⟩
        · simp [siftdownLoop, hj, hp1, hx2, hc2, hlt, e1]
        · refine e4.trans ?_
          rw [hsw]; exact perm_swap hx1 hc1
        · intro k hk
          rw [e5 k (by omega), hsw]
          simp only [getElem?_swap hx1 hc1 k]
          have h1 : k ≠ j1 := by omega
          have h2 : k ≠ i := by omega
          simp [h1, h2]
        · apply e8
          rw [hsw]
          simp only [expAt_swap hx1 hc1]
          exact downInv_step hd (by omega) hj1n hj1p hmin hle
    · refine ⟨i, t, ?_, le_refl _, r, List.Perm.refl _, fun _ _ => rfl, fun _ => ⟨rfl, ?_⟩,
        fun hh => absurd hh (lt_irrefl _), fun hd => ?_⟩
      · simp [siftdownLoop, hj]
      · intro c h0 hcn hcp; omega
      · exact hord_of_downInv hd (fun c h0 hcn hcp => by omega)

theorem siftdown_spec {t : HeapTimer} {n i : Nat} (hi : i < n) (hn : n ≤ t.heap_.length)
    (r : RefInv t) :
    ∃ moved t1, siftdown_ t i n = .ok (moved, t1) ∧ RefInv t1 ∧ t1.heap_.Perm t.heap_ ∧
      (∀ k, k < i ∨ n ≤ k → t1.heap_[k]? = t.heap_[k]?) ∧
      (moved = false → t1 = t ∧
        ∀ c, 0 < c → c < n → (c - 1) / 2 = i → expAt t.heap_ i < expAt t.heap_ c) ∧
      (moved = true →
        ∃ c, 0 < c ∧ c < n ∧ (c - 1) / 2 = i ∧ expAt t.heap_ c ≤ expAt t.heap_ i) ∧
      (DownInv n (expAt t.heap_) i → HOrd n (expAt t1.heap_)) := by
  obtain ⟨i1, t1, e1, e2, e3, e4, e5, e6, e7, e8⟩ :=
    siftdownLoop_spec (n + 1) t n i hi hn (by omega) r
  have hil : i < t.heap_.length := by omega
  refine ⟨decide (i < i1), t1, ?_, e3, e4, e5, fun hm => ?_, fun hm => ?_, e8⟩
  · simp [siftdown_, hil, hn, e1]
  · have : ¬ i < i1 := by simpa using hm
    exact e6 (by omega)
  · have : i < i1 := by simpa using hm
    exact e7 this

/-! ### `siftup_` -/

theorem decr_of_pos {i : Nat} (h0 : 0 < i) (h : i ≤ maxSize) : decr i / 2 = (i - 1) / 2 := by
  unfold decr
  unfold maxSize at h
  omega

theorem decr_zero : decr 0 / 2 = maxSize := by
  unfold decr maxSize
  omega

theorem siftupLoop_spec (fuel : Nat) : ∀ (t t1 : HeapTimer) (i : Nat), Sized t →
    i < t.heap_.length → RefInv t → siftupLoop fuel t i (decr i / 2) = .ok t1 →
    RefInv t1 ∧ t1.heap_.Perm t.heap_ ∧ (∀ k, i < k → t1.heap_[k]? = t.heap_[k]?) ∧
      ∀ n, i < n → n ≤ t.heap_.length → UpInv n (expAt t.heap_) i →
        HOrd n (expAt t1.heap_) := by
  induction fuel with
  | zero => intro t t1 i _ _ _ h; simp [siftupLoop] at h
  | succ fuel ih =>
    intro t t1 i hs hi r h
    have hs1 : t.heap_.length ≤ maxSize := hs
    by_cases h0 : i = 0
    · subst h0
      rw [decr_zero] at h
      have : t.heap_[maxSize]? = none := List.getElem?_eq_none hs1
      simp [siftupLoop, rd, this] at h
    · have hpos : 0 < i := Nat.pos_of_ne_zero h0
      rw [decr_of_pos hpos (by omega)] at h
      have hpl : (i - 1) / 2 < t.heap_.length := by omega
      obtain ⟨a, ha1, ha2, ha3⟩ := rd_of_lt hpl
      obtain ⟨b, hb1, hb2, hb3⟩ := rd_of_lt hi
      by_cases hlt : a.lt b = true
      · simp only [siftupLoop, ha2, hb2, hlt, if_true] at h
        have : t1 = t := (Except.ok.inj h).symm
        subst this
        refine ⟨r, List.Perm.refl _, fun _ _ => rfl, fun n _ _ hu => ?_⟩
        refine hord_of_upInv hu (fun _ _ => ?_)
        have := (lt_iff_expires a b).1 hlt
        rw [ha3, hb3]; omega
      · simp only [siftupLoop, ha2, hb2, hlt] at h
        have hle : expAt t.heap_ i ≤ expAt t.heap_ ((i - 1) / 2) := by
          have : ¬ a.expires < b.expires := fun hh => hlt ((lt_iff_expires a b).2 hh)
          rw [ha3, hb3]; omega
        have hsw := SwapNode_eq hb1 ha1
        have hlen : (t.SwapNode_ i ((i - 1) / 2)).heap_.length = t.heap_.length := by
          rw [hsw]; simp
        have hs2 : Sized (t.SwapNode_ i ((i - 1) / 2)) := by
          unfold Sized; rw [hlen]; exact hs1
        by_cases hp0 : (i - 1) / 2 = 0
        · -- the node has reached the root: the next parent index is out of range
          rw [hp0] at h
          cases fuel with
          | zero => simp [siftupLoop] at h
          | succ fuel =>
            rw [decr_zero] at h
            have hn0 : (t.SwapNode_ i 0).heap_[maxSize]? = none := by
              apply List.getElem?_eq_none
              rw [← hp0, hlen]; exact hs1
            simp [siftupLoop, rd, hn0] at h
        · have hdec : decr ((i - 1) / 2) / 2 = ((i - 1) / 2 - 1) / 2 :=
            decr_of_pos (Nat.pos_of_ne_zero hp0) (by omega)
          have h2 : siftupLoop fuel (t.SwapNode_ i ((i - 1) / 2)) ((i - 1) / 2)
              (decr ((i - 1) / 2) / 2) = .ok t1 := h
          obtain ⟨e1, e2, e3, e4⟩ := ih _ t1 ((i - 1) / 2) hs2 (by rw [hlen]; exact hpl)
            (r.swap hb1 ha1) h2
          refine ⟨e1, ?_, ?_, fun n hin hnl hu => ?_⟩
          · refine e2.trans ?_
            rw [hsw]; exact perm_swap hb1 ha1
          · intro k hk
            rw [e3 k (by omega), hsw]
            simp only [getElem?_swap hb1 ha1 k]
            have h1 : k ≠ (i - 1) / 2 := by omega
            have h2 : k ≠ i := by omega
            simp [h1, h2]
          · apply e4 n (by omega) (by rw [hlen]; exact hnl)
            rw [hsw]
            simp only [expAt_swap hb1 ha1]
            exact upInv_step hu hpos hin hle

theorem siftup_spec {t t1 : HeapTimer} {i : Nat} (hs : Sized t) (hi : i < t.heap_.length)
    (r : RefInv t) (h : siftup_ t i = .ok t1) :
    RefInv t1 ∧ t1.heap_.Perm t.heap_ ∧ (∀ k, i < k → t1.heap_[k]? = t.heap_[k]?) ∧
      ∀ n, i < n → n ≤ t.heap_.length → UpInv n (expAt t.heap_) i →
        HOrd n (expAt t1.heap_) := by
  have hne : t.heap_.length ≠ 0 := by omega
  simp only [siftup_, hne, if_false] at h
  exact siftupLoop_spec (i + 1) t t1 i hs hi r h

/-! ### The invariants H1, H2, H3 and their working forms -/

theorem h1_iff_hord (t : HeapTimer) : H1 t ↔ HOrd t.heap_.length (expAt t.heap_) :=
  ⟨fun h c h0 hn => h c hn h0, fun h c hn h0 => h c h0 hn⟩

theorem RefInv.h2 {t : HeapTimer} (r : RefInv t) : H2 t := by
  intro k i
  constructor
  · exact r.bwd k i
  · rintro ⟨nd, h1, h2⟩
    rw [← h2]; exact r.fwd i nd h1

theorem RefInv.h3 {t : HeapTimer} (r : RefInv t) : H3 t := r.len

theorem RefInv.of_h2_h3 {t : HeapTimer} (h2 : H2 t) (h3 : H3 t) : RefInv t := by
  have fwd : ∀ i nd, t.heap_[i]? = some nd → t.ref_.find? nd.id = some i :=
    fun i nd h => (h2 nd.id i).2 ⟨nd, h, rfl⟩
  refine ⟨fwd, fun k v h => (h2 k v).1 h, h3, ?_⟩
  -- the ids of the heap are pairwise distinct keys of `ref_`, and there are as many of them
  -- as there are keys
  have hnd : (t.heap_.map (fun nd => nd.id)).Nodup := by
    rw [List.nodup_iff_getElem?_ne_getElem?]
    intro i j hij hj he
    simp only [List.length_map] at hj
    have hi : i < t.heap_.length := by omega
    simp only [List.getElem?_map, List.getElem?_eq_getElem hi, List.getElem?_eq_getElem hj,
      Option.map_some', Option.some.injEq] at he
    have e1 := fwd i _ (List.getElem?_eq_getElem hi)
    have e2 := fwd j _ (List.getElem?_eq_getElem hj)
    rw [he, e2] at e1
    have := Option.some.inj e1
    omega
  have hsub : t.heap_.map (fun nd => nd.id) ⊆ t.ref_.map Prod.fst := by
    intro k hk
    obtain ⟨nd, hmem, hid⟩ := List.mem_map.1 hk
    obtain ⟨i, hi, hget⟩ := List.getElem_of_mem hmem
    have := fwd i nd (by rw [List.getElem?_eq_getElem hi, hget])
    rw [← hid]
    exact RefMap.mem_keys_of_find? this
  have hperm := (List.subperm_of_subset hnd hsub).perm_of_length_le (by
    simp only [List.length_map]; exact le_of_eq h3)
  exact hperm.nodup_iff.1 hnd

theorem WF.refInv {t : HeapTimer} (w : WF t) : RefInv t := RefInv.of_h2_h3 w.h2 w.h3

theorem WF.hord {t : HeapTimer} (w : WF t) : HOrd t.heap_.length (expAt t.heap_) :=
  (h1_iff_hord t).1 w.h1

theorem WF.mk1 {t : HeapTimer} (hs : t.heap_.length ≤ maxSize) (r : RefInv t)
    (h : HOrd t.heap_.length (expAt t.heap_)) : WF t :=
  ⟨hs, (h1_iff_hord t).2 h, r.h2, r.h3⟩

theorem expAt_set {h : List TimerNode} {i : Nat} (hi : i < h.length) (x : TimerNode) (k : Nat) :
    expAt (h.set i x) k = if k = i then x.expires else expAt h k := by
  by_cases hk : k = i
  · subst hk; simp [expAt, hi]
  · simp [expAt, hk, Ne.symm hk]

/-- Overwriting the node at `i` leaves only the edges at `i` open. -/
theorem hole_set {h : List TimerNode} {n i : Nat} (ho : HOrd n (expAt h)) (hi : i < h.length)
    (x : TimerNode) : Hole n (expAt (h.set i x)) i := by
  have hh := hole_of_hord ho i
  refine ⟨fun c h0 hn hci hpi => ?_, fun c h0 hn hp hi0 => ?_⟩
  · rw [expAt_set hi, expAt_set hi]
    simp only [hci, hpi, if_false]
    exact hh.1 c h0 hn hci hpi
  · have h1 : c ≠ i := by omega
    have h2 : (i - 1) / 2 ≠ i := by omega
    rw [expAt_set hi, expAt_set hi]
    simp only [h1, h2, if_false]
    exact hh.2 c h0 hn hp hi0

/-- Overwriting the fields `expires` and `cb` of a node keeps `ref_` consistent. -/
theorem RefInv.set {t : HeapTimer} (r : RefInv t) {i : Nat} {nd : TimerNode}
    (hnd : t.heap_[i]? = some nd) (e : Int) (cb : Nat) :
    RefInv ⟨t.heap_.set i ⟨nd.id, e, cb⟩, t.ref_⟩ := by
  have hi : i < t.heap_.length := (List.getElem?_eq_some_iff.1 hnd).1
  refine ⟨fun k x hk => ?_, fun k v hk => ?_, by simpa using r.len, r.nodup⟩
  · simp only [List.getElem?_set, hi, if_true] at hk
    by_cases hik : i = k
    · simp only [hik, if_true, Option.some.injEq] at hk
      subst hk; subst hik
      exact r.fwd i nd hnd
    · simp only [hik, if_false] at hk
      exact r.fwd k x hk
  · obtain ⟨x, hx, hid⟩ := r.bwd k v hk
    by_cases hiv : i = v
    · subst hiv
      rw [hnd] at hx
      have : nd = x := Option.some.inj hx
      subst this
      exact ⟨⟨nd.id, e, cb⟩, by simp [hi], hid⟩
    · exact ⟨x, by simp [List.getElem?_set, hiv, hx], hid⟩

/-! ### `adjust` -/

theorem RefMap.idx_of_find? {m : RefMap} {k : Int} {v : Nat} (h : RefMap.find? m k = some v) :
    RefMap.idx m k = v := by
  simp [RefMap.idx, h]

theorem RefMap.count_of_find? {m : RefMap} {k : Int} {v : Nat} (h : RefMap.find? m k = some v) :
    RefMap.count m k = 1 := by
  simp [RefMap.count, h]

/-- The node `x` of `l` sits at some index. -/
theorem exists_index_of_perm_set {l l1 : List TimerNode} {i : Nat} (hi : i < l.length)
    (x : TimerNode) (hp : l1.Perm (l.set i x)) : ∃ i1 : Nat, l1[i1]? = some x := by
  have hmem : x ∈ l.set i x := List.mem_iff_getElem?.2 ⟨i, by simp [hi]⟩
  obtain ⟨i1, h1, h2⟩ := List.getElem_of_mem (hp.symm.subset hmem)
  exact ⟨i1, by rw [List.getElem?_eq_getElem h1, h2]⟩

/-- What `adjust` does when the new expiry is not before the current one. -/
theorem adjust_spec (t : HeapTimer) (tpm : Nat) (now id timeout : Int)
    (i : Nat) (nd : TimerNode) (h1 : H1 t) (h2 : H2 t) (h3 : H3 t)
    (hf : t.ref_.find? id = some i) (hnd : t.heap_[i]? = some nd)
    (hext : nd.expires ≤ now + timeout * tpm) :
    ∃ (t1 : HeapTimer) (i1 : Nat), t.adjust tpm now id timeout = .ok t1 ∧
      H1 t1 ∧ H2 t1 ∧ H3 t1 ∧
      t1.heap_.Perm (t.heap_.set i ⟨nd.id, now + timeout * tpm, nd.cb⟩) ∧
      t1.ref_.find? id = some i1 ∧
      t1.heap_[i1]? = some ⟨id, now + timeout * tpm, nd.cb⟩ := by
  have r : RefInv t := RefInv.of_h2_h3 h2 h3
  have hi : i < t.heap_.length := (List.getElem?_eq_some_iff.1 hnd).1
  have hid : nd.id = id := by
    obtain ⟨x, hx, hxid⟩ := r.bwd id i hf
    rw [hnd] at hx
    rw [Option.some.inj hx]; exact hxid
  have hne : t.heap_ ≠ [] := by
    intro h; rw [h] at hi; simp at hi
  obtain ⟨_, _, hrd, hex⟩ := rd_of_lt hi
  have hrd1 : rd t.heap_ i = .ok nd := by
    simp [rd, hnd]
  have hex1 : expAt t.heap_ i = nd.expires := by
    simp [expAt, hnd]
  -- the state handed to `siftdown_`
  have r1 := r.set hnd (now + timeout * tpm) nd.cb
  have ho := (h1_iff_hord t).1 h1
  have hd : DownInv t.heap_.length
      (expAt (t.heap_.set i ⟨nd.id, now + timeout * tpm, nd.cb⟩)) i := by
    refine ⟨hole_set ho hi _, fun h0 _ => ?_⟩
    have hp : (i - 1) / 2 ≠ i := by omega
    rw [expAt_set hi, expAt_set hi]
    simp only [hp, if_false, if_true]
    have := ho i h0 hi
    rw [hex1] at this
    omega
  have hlen1 : (t.heap_.set i ⟨nd.id, now + timeout * tpm, nd.cb⟩).length = t.heap_.length := by
    simp
  obtain ⟨moved, t1, e1, e2, e3, _, _, _, e7⟩ :=
    siftdown_spec (t := ⟨t.heap_.set i ⟨nd.id, now + timeout * tpm, nd.cb⟩, t.ref_⟩)
      (n := t.heap_.length) (i := i) hi (le_of_eq hlen1.symm) r1
  have hlen : t1.heap_.length = t.heap_.length := by
    rw [e3.length_eq]; exact hlen1
  obtain ⟨i1, hi1⟩ := exists_index_of_perm_set hi ⟨nd.id, now + timeout * tpm, nd.cb⟩ e3
  refine ⟨t1, i1, ?_, ?_, e2.h2, e2.h3, e3, ?_, ?_⟩
  · have hcond : t.heap_ ≠ [] ∧ 0 < t.ref_.count id :=
      ⟨hne, by rw [RefMap.count_of_find? hf]; exact Nat.one_pos⟩
    unfold adjust
    rw [if_neg (not_not_intro hcond)]
    simp only [RefMap.idx_of_find? hf, hrd1, List.length_set]
    rw [e1]
  · rw [h1_iff_hord, hlen]
    exact e7 hd
  · have := e2.fwd i1 _ hi1
    rw [← hid]; exact this
  · rw [hi1, hid]

/-! ### `del_` -/

/-- After the exchange of `i` with the last position `n`, the first `n` positions are in heap
order except at `i`. -/
theorem hole_swap_last {e : Nat → Int} {n i : Nat} (ho : HOrd (n + 1) e) (hi : i < n) :
    Hole n (swapF e i n) i := by
  have hh := hole_of_hord ho i
  refine ⟨fun c h0 hn hci hpi => ?_, fun c h0 hn hp hi0 => ?_⟩
  · have h1 : c ≠ n := by omega
    have h2 : (c - 1) / 2 ≠ n := by omega
    simp only [swapF, h1, h2, hci, hpi, if_false]
    exact ho c h0 (by omega)
  · have h1 : c ≠ n := by omega
    have h2 : c ≠ i := by omega
    have h3 : (i - 1) / 2 ≠ n := by omega
    have h4 : (i - 1) / 2 ≠ i := by omega
    simp only [swapF, h1, h2, h3, h4, if_false]
    exact hh.2 c h0 (by omega) hp hi0

/-- The last two statements of `del_`: erase the id of the last node and drop the node. -/
theorem del_finish {t : HeapTimer} {n : Nat} {d : TimerNode} (r : RefInv t)
    (hlen : t.heap_.length = n + 1) (hd : t.heap_[n]? = some d)
    (ho : HOrd n (expAt t.heap_)) :
    RefInv ⟨t.heap_.dropLast, t.ref_.erase d.id⟩ ∧
      HOrd n (expAt t.heap_.dropLast) ∧ t.heap_.dropLast.length = n ∧
      (d :: t.heap_.dropLast).Perm t.heap_ ∧
      RefMap.find? (t.ref_.erase d.id) d.id = none := by
  have hget : ∀ k, t.heap_.dropLast[k]? = if k < n then t.heap_[k]? else none := by
    intro k
    rw [List.getElem?_dropLast, hlen]
    simp
  have hfd := r.fwd n d hd
  have hsplit : t.heap_.dropLast ++ [d] = t.heap_ := by
    apply List.dropLast_append_getLast?
    rw [List.getLast?_eq_getElem?, hlen]
    simpa using hd
  refine ⟨⟨fun k x hk => ?_, fun k v hk => ?_, ?_, ?_⟩, ?_, ?_, ?_, ?_⟩
  · rw [hget] at hk
    by_cases hkn : k < n
    · simp only [hkn, if_true] at hk
      have hne : x.id ≠ d.id := fun hh => by
        have := r.idx_inj hk hd hh
        omega
      simp only []
      rw [RefMap.find?_erase_ne _ hne]
      exact r.fwd k x hk
    · simp [hkn] at hk
  · simp only [] at hk ⊢
    have hne : k ≠ d.id := by
      intro hh
      rw [hh, RefMap.find?_erase_self _ r.nodup] at hk
      exact Option.noConfusion hk
    rw [RefMap.find?_erase_ne _ hne] at hk
    obtain ⟨x, hx, hid⟩ := r.bwd k v hk
    have hv : v < t.heap_.length := (List.getElem?_eq_some_iff.1 hx).1
    have hvn : v ≠ n := by
      intro hh
      rw [hh, hd] at hx
      exact hne (by rw [← hid, ← Option.some.inj hx])
    have hvlt : v < n := by omega
    exact ⟨x, by rw [hget]; simp [hvlt, hx], hid⟩
  · have := RefMap.length_erase_of_find? hfd
    have h3 := r.len
    simp only [List.length_dropLast]
    omega
  · exact (RefMap.keys_erase_sublist _ _).nodup r.nodup
  · intro c h0 hcn
    have h1 : (c - 1) / 2 < n := by omega
    have := ho c h0 hcn
    simp only [expAt, hget, hcn, h1, if_true] at this ⊢
    exact this
  · simp [hlen]
  · rw [← hsplit]
    simp only [List.dropLast_concat]
    exact (List.perm_append_singleton d _).symm
  · exact RefMap.find?_erase_self _ r.nodup

theorem del_spec {t t1 : HeapTimer} {i : Nat} {d : TimerNode} (w : WF t)
    (hd : t.heap_[i]? = some d) (h : t.del_ i = .ok t1) :
    WF t1 ∧ (d :: t1.heap_).Perm t.heap_ ∧ t1.ref_.find? d.id = none ∧
      t1.heap_.length + 1 = t.heap_.length := by
  have r := w.refInv
  have ho := w.hord
  have hs : t.heap_.length ≤ maxSize := w.sized
  have hi : i < t.heap_.length := (List.getElem?_eq_some_iff.1 hd).1
  have hne : t.heap_ ≠ [] := by
    intro hh; rw [hh] at hi; simp at hi
  obtain ⟨n, hn⟩ : ∃ n, t.heap_.length = n + 1 := ⟨t.heap_.length - 1, by omega⟩
  have hin : i ≤ n := by omega
  -- the state before the last two statements
  have key : ∃ t3, RefInv t3 ∧ t3.heap_.length = n + 1 ∧ t3.heap_[n]? = some d ∧
      HOrd n (expAt t3.heap_) ∧ t3.heap_.Perm t.heap_ ∧
      t.del_ i = (match t3.heap_.getLast? with
        | none => .error (.outOfRange 0 0)
        | some b => .ok ⟨t3.heap_.dropLast, t3.ref_.erase b.id⟩) := by
    have hcond : t.heap_ ≠ [] ∧ i < t.heap_.length := ⟨hne, hi⟩
    have hin1 : i ≤ t.heap_.length - 1 := by omega
    by_cases hlt : i < n
    · obtain ⟨x, hx, -, -⟩ := rd_of_lt (h := t.heap_) (k := n) (by omega)
      have hsw := SwapNode_eq hd hx
      have r0 := r.swap hd hx
      have hlen0 : (t.SwapNode_ i n).heap_.length = n + 1 := by rw [hsw]; simpa using hn
      have hperm0 : (t.SwapNode_ i n).heap_.Perm t.heap_ := by
        rw [hsw]; exact perm_swap hd hx
      have hd0 : (t.SwapNode_ i n).heap_[n]? = some d := by
        rw [hsw]; simp [getElem?_swap hd hx]
      have hhole : Hole n (expAt (t.SwapNode_ i n).heap_) i := by
        rw [hsw]
        simp only [expAt_swap hd hx]
        exact hole_swap_last (by rw [← hn]; exact ho) hlt
      obtain ⟨moved, t2, e1, e2, e3, e4, e5, e6, e7⟩ :=
        siftdown_spec (t := t.SwapNode_ i n) hlt (by omega) r0
      have hdel : t.del_ i = (match (if !moved then siftup_ t2 i else .ok t2) with
          | .error e => .error e
          | .ok t3 => (match t3.heap_.getLast? with
            | none => .error (.outOfRange 0 0)
            | some b => .ok ⟨t3.heap_.dropLast, t3.ref_.erase b.id⟩)) := by
        unfold del_
        rw [if_neg (not_not_intro hcond)]
        dsimp only
        rw [if_neg (not_not_intro hin1)]
        simp only [hn, Nat.add_sub_cancel, hlt, if_true, e1]
      cases hm : moved with
      | true =>
        obtain ⟨c, hc0, hcn, hcp, hce⟩ := e6 hm
        have hdown : DownInv n (expAt (t.SwapNode_ i n).heap_) i := by
          refine ⟨hhole, fun h0 _ => ?_⟩
          have := hhole.2 c hc0 hcn hcp h0
          omega
        refine ⟨t2, e2, by rw [e3.length_eq, hlen0], ?_, e7 hdown, e3.trans hperm0, ?_⟩
        · rw [e4 n (Or.inr (le_refl _))]; exact hd0
        · rw [hdel, hm]; rfl
      | false =>
        obtain ⟨ht2, hch⟩ := e5 hm
        subst ht2
        rw [hm] at hdel
        simp only [Bool.not_false, if_true] at hdel
        rw [hdel] at h
        cases hsu : siftup_ (t.SwapNode_ i n) i with
        | error e => rw [hsu] at h; exact Except.noConfusion h
        | ok t3 =>
          have hs0 : Sized (t.SwapNode_ i n) := by
            unfold Sized; rw [hlen0, ← hn]; exact hs
          obtain ⟨u1, u2, u3, u4⟩ := siftup_spec hs0 (by omega) r0 hsu
          have hup : UpInv n (expAt (t.SwapNode_ i n).heap_) i :=
            ⟨hhole, fun c h0 hcn hp => le_of_lt (hch c h0 hcn hp)⟩
          refine ⟨t3, u1, by rw [u2.length_eq, hlen0], ?_, u4 n hlt (by omega) hup,
            u2.trans hperm0, ?_⟩
          · rw [u3 n hlt]; exact hd0
          · rw [hdel, hsu]
    · have hin2 : i = n := by omega
      subst hin2
      refine ⟨t, r, hn, hd, fun c h0 hc => ho c h0 (by omega), List.Perm.refl _, ?_⟩
      unfold del_
      rw [if_neg (not_not_intro hcond)]
      dsimp only
      rw [if_neg (not_not_intro hin1)]
      simp only [hn, Nat.add_sub_cancel, Nat.lt_irrefl, if_false]
  obtain ⟨t3, k1, k2, k3, k4, k5, k6⟩ := key
  have hlast : t3.heap_.getLast? = some d := by
    rw [List.getLast?_eq_getElem?, k2]; simpa using k3
  rw [k6, hlast] at h
  have : t1 = ⟨t3.heap_.dropLast, t3.ref_.erase d.id⟩ := (Except.ok.inj h).symm
  subst this
  obtain ⟨f1, f2, f3, f4, f5⟩ := del_finish k1 k2 k3 k4
  refine ⟨WF.mk1 ?_ f1 ?_, f4.trans k5, f5, ?_⟩
  · simp only [f3]; omega
  · simp only [f3]; exact f2
  · simp only [f3]; omega

/-! ### `add` -/

/-- The repair step shared by `add` and `del_`: `if (!siftdown_(i, n)) siftup_(i)`, started
with only the edges at `i` open, ends in heap order whenever it completes. -/
theorem repair_spec {t t3 : HeapTimer} {n i : Nat} (hs : Sized t) (hi : i < n)
    (hn : n ≤ t.heap_.length) (r : RefInv t) (hh : Hole n (expAt t.heap_) i)
    (h : (match siftdown_ t i n with
      | .error e => Except.error e
      | .ok (moved, t2) => if !moved then siftup_ t2 i else Except.ok t2) = Except.ok t3) :
    RefInv t3 ∧ t3.heap_.Perm t.heap_ ∧ (∀ k, n ≤ k → t3.heap_[k]? = t.heap_[k]?) ∧
      HOrd n (expAt t3.heap_) := by
  obtain ⟨moved, t2, e1, e2, e3, e4, e5, e6, e7⟩ := siftdown_spec hi hn r
  rw [e1] at h
  cases hm : moved with
  | true =>
    rw [hm] at h
    have : t3 = t2 := (Except.ok.inj h).symm
    subst this
    obtain ⟨c, hc0, hcn, hcp, hce⟩ := e6 hm
    refine ⟨e2, e3, fun k hk => e4 k (Or.inr hk), e7 ⟨hh, fun h0 _ => ?_⟩⟩
    have := hh.2 c hc0 hcn hcp h0
    omega
  | false =>
    obtain ⟨ht2, hch⟩ := e5 hm
    subst ht2
    rw [hm] at h
    obtain ⟨u1, u2, u3, u4⟩ := siftup_spec hs (by omega) r h
    exact ⟨u1, u2, fun k hk => u3 k (by omega),
      u4 n hi hn ⟨hh, fun c h0 hcn hp => le_of_lt (hch c h0 hcn hp)⟩⟩

theorem RefMap.find?_none_of_count {m : RefMap} {k : Int} (h : RefMap.count m k = 0) :
    RefMap.find? m k = none := by
  unfold RefMap.count at h
  cases hf : RefMap.find? m k with
  | none => rfl
  | some v => simp [hf] at h

theorem RefMap.find?_some_of_count {m : RefMap} {k : Int} (h : ¬ RefMap.count m k = 0) :
    ∃ v, RefMap.find? m k = some v := by
  unfold RefMap.count at h
  cases hf : RefMap.find? m k with
  | none => simp [hf] at h
  | some v => exact ⟨v, rfl⟩

/-- Appending a node with a fresh id and recording its index keeps `ref_` consistent. -/
theorem RefInv.push {t : HeapTimer} (r : RefInv t) {nd : TimerNode}
    (hf : t.ref_.find? nd.id = none) :
    RefInv ⟨t.heap_ ++ [nd], t.ref_.assign nd.id t.heap_.length⟩ := by
  have hkeys := RefMap.keys_assign_of_none t.heap_.length hf
  refine ⟨fun k x hk => ?_, fun k v hk => ?_, ?_, ?_⟩
  · simp only [] at hk ⊢
    by_cases hkl : k < t.heap_.length
    · rw [List.getElem?_append_left hkl] at hk
      have h1 := r.fwd k x hk
      have hne : x.id ≠ nd.id := fun hh => by rw [hh, hf] at h1; exact Option.noConfusion h1
      rw [RefMap.find?_assign_ne _ _ hne]; exact h1
    · rw [List.getElem?_append_right (by omega)] at hk
      have hk0 : k - t.heap_.length = 0 := by
        by_contra hne
        have : [nd][k - t.heap_.length]? = none := by
          apply List.getElem?_eq_none; simp; omega
        rw [this] at hk; exact Option.noConfusion hk
      rw [hk0] at hk
      have hx : nd = x := by simpa using hk
      subst hx
      have : k = t.heap_.length := by omega
      rw [this]; exact RefMap.find?_assign_self _ _ _
  · simp only [] at hk ⊢
    by_cases hkid : k = nd.id
    · subst hkid
      rw [RefMap.find?_assign_self] at hk
      have : v = t.heap_.length := (Option.some.inj hk).symm
      subst this
      exact ⟨nd, by simp, rfl⟩
    · rw [RefMap.find?_assign_ne _ _ hkid] at hk
      obtain ⟨x, hx, hid⟩ := r.bwd k v hk
      have hv : v < t.heap_.length := (List.getElem?_eq_some_iff.1 hx).1
      exact ⟨x, by rw [List.getElem?_append_left hv]; exact hx, hid⟩
  · have h1 := congrArg List.length hkeys
    simp only [List.length_map, List.length_append, List.length_singleton] at h1 ⊢
    rw [h1, r.len]
  · simp only []
    rw [hkeys]
    refine List.Nodup.append r.nodup (List.nodup_singleton _) ?_
    intro k hk1 hk2
    have : k = nd.id := by simpa using hk2
    subst this
    obtain ⟨v, hv⟩ := RefMap.find?_of_mem_keys hk1
    rw [hf] at hv; exact Option.noConfusion hv

theorem expAt_append_left {h : List TimerNode} {k : Nat} (hk : k < h.length) (x : TimerNode) :
    expAt (h ++ [x]) k = expAt h k := by
  simp [expAt, List.getElem?_append_left hk]

/-- What `add` yields when it completes: a state satisfying the invariants whose nodes are
the old ones plus the new node (fresh id), or the old ones with the node of `id` overwritten
(present id). -/
theorem add_spec {t t1 : HeapTimer} {tpm : Nat} {now id timeout : Int} {cb : Nat} (w : WF t)
    (h : t.add tpm now id timeout cb = .ok t1) :
    WF t1 ∧ (id < 0 → t1 = t) ∧
      (0 ≤ id → t.ref_.find? id = none →
        t1.heap_.Perm (⟨id, now + timeout * tpm, cb⟩ :: t.heap_)) ∧
      (0 ≤ id → ∀ i, t.ref_.find? id = some i →
        t1.heap_.Perm (t.heap_.set i ⟨id, now + timeout * tpm, cb⟩)) := by
  have r := w.refInv
  have ho := w.hord
  have hs : t.heap_.length ≤ maxSize := w.sized
  by_cases hneg : id < 0
  · simp only [add, hneg, if_true] at h
    have : t1 = t := (Except.ok.inj h).symm
    subst this
    exact ⟨w, fun _ => rfl, fun h0 => absurd hneg (by omega), fun h0 => absurd hneg (by omega)⟩
  · by_cases hc : t.ref_.count id = 0
    · have hf := RefMap.find?_none_of_count hc
      by_cases hmax : maxSize ≤ t.heap_.length
      · simp [add, hneg, hc, hmax] at h
      · simp only [add, hneg, hc, hmax, if_false, if_true] at h
        have r0 := @RefInv.push t r ⟨id, now + timeout * tpm, cb⟩ hf
        have hs0 : Sized ⟨t.heap_ ++ [⟨id, now + timeout * tpm, cb⟩],
            t.ref_.assign id t.heap_.length⟩ := by
          unfold Sized; simp; omega
        obtain ⟨u1, u2, _, u4⟩ := siftup_spec hs0 (by simp) r0 h
        have hup : UpInv (t.heap_.length + 1)
            (expAt (t.heap_ ++ [⟨id, now + timeout * tpm, cb⟩])) t.heap_.length := by
          refine ⟨⟨fun c h0 hn hci hpi => ?_, fun c h0 hn hp _ => by omega⟩,
            fun c h0 hn hp => by omega⟩
          rw [expAt_append_left (by omega), expAt_append_left (by omega)]
          exact ho c h0 (by omega)
        have hlen : t1.heap_.length = t.heap_.length + 1 := by
          rw [u2.length_eq]; simp
        refine ⟨WF.mk1 ?_ u1 ?_, fun h0 => absurd h0 hneg, fun _ _ => ?_, fun _ i hi => ?_⟩
        · rw [hlen]; omega
        · rw [hlen]; exact u4 _ (by omega) (by simp) hup
        · exact u2.trans (List.perm_append_singleton _ _)
        · rw [hf] at hi; exact Option.noConfusion hi
    · obtain ⟨i, hf⟩ := RefMap.find?_some_of_count hc
      obtain ⟨nd, hnd, hid⟩ := r.bwd id i hf
      have hi : i < t.heap_.length := (List.getElem?_eq_some_iff.1 hnd).1
      have hrd : rd t.heap_ i = .ok nd := by simp [rd, hnd]
      simp only [add, hneg, hc, if_false, RefMap.idx_of_find? hf, hrd] at h
      have r0 := r.set hnd (now + timeout * tpm) cb
      have hlen0 : (t.heap_.set i ⟨nd.id, now + timeout * tpm, cb⟩).length = t.heap_.length := by
        simp
      obtain ⟨v1, v2, _, v4⟩ := repair_spec
        (t := ⟨t.heap_.set i ⟨nd.id, now + timeout * tpm, cb⟩, t.ref_⟩)
        (n := (t.heap_.set i ⟨nd.id, now + timeout * tpm, cb⟩).length)
        (by unfold Sized; rw [hlen0]; exact hs) (by rw [hlen0]; exact hi) (le_refl _) r0
        (by rw [hlen0]; exact hole_set ho hi _) h
      rw [hlen0] at v4
      have hlen : t1.heap_.length = t.heap_.length := by rw [v2.length_eq]; exact hlen0
      refine ⟨WF.mk1 ?_ v1 ?_, fun h0 => absurd h0 hneg, fun _ hn => ?_, fun _ i1 hi1 => ?_⟩
      · rw [hlen]; exact hs
      · rw [hlen]; exact v4
      · rw [hf] at hn; exact Option.noConfusion hn
      · rw [hf] at hi1
        have : i = i1 := Option.some.inj hi1
        subst this
        rw [← hid]; exact v2

/-! ### `pop`, `doWork`, `tick` -/

theorem pop_spec {t t1 : HeapTimer} (w : WF t) (h : t.pop = .ok t1) :
    ∃ d rest, t.heap_ = d :: rest ∧ WF t1 ∧ (d :: t1.heap_).Perm t.heap_ ∧
      t1.ref_.find? d.id = none ∧ t1.heap_.length + 1 = t.heap_.length := by
  by_cases hne : t.heap_ = []
  · simp [pop, hne] at h
  · obtain ⟨d, rest, hh⟩ := List.exists_cons_of_ne_nil hne
    simp only [pop, hne, if_false] at h
    have hd : t.heap_[0]? = some d := by rw [hh]; simp
    obtain ⟨e1, e2, e3, e4⟩ := del_spec w hd h
    exact ⟨d, rest, hh, e1, e2, e3, e4⟩

theorem doWork_spec {t t1 : HeapTimer} {id : Int} {fired : List TimerNode} (w : WF t)
    (h : t.doWork id = .ok (t1, fired)) :
    WF t1 ∧ (t.ref_.find? id = none → t1 = t ∧ fired = []) ∧
      (∀ i nd, t.ref_.find? id = some i → t.heap_[i]? = some nd →
        fired = [nd] ∧ (nd :: t1.heap_).Perm t.heap_ ∧ t1.ref_.find? id = none) := by
  have r := w.refInv
  by_cases hc : t.heap_ = [] ∨ t.ref_.count id = 0
  · simp only [doWork, hc, if_true] at h
    have h1 := Except.ok.inj h
    have ht : t1 = t := (congrArg Prod.fst h1).symm
    have hf : fired = [] := (congrArg Prod.snd h1).symm
    subst ht
    refine ⟨w, fun _ => ⟨rfl, hf⟩, fun i nd hi hnd => ?_⟩
    rcases hc with hc | hc
    · rw [hc] at hnd; simp at hnd
    · rw [RefMap.count_of_find? hi] at hc; exact absurd hc (by decide)
  · have hc2 : ¬ t.ref_.count id = 0 := fun hh => hc (Or.inr hh)
    obtain ⟨i, hf⟩ := RefMap.find?_some_of_count hc2
    obtain ⟨nd, hnd, hid⟩ := r.bwd id i hf
    have hrd : rd t.heap_ i = .ok nd := by simp [rd, hnd]
    simp only [doWork, hc, if_false, RefMap.idx_of_find? hf, hrd] at h
    cases hdel : t.del_ i with
    | error e => rw [hdel] at h; exact Except.noConfusion h
    | ok t2 =>
      rw [hdel] at h
      have h1 := Except.ok.inj h
      have ht : t1 = t2 := (congrArg Prod.fst h1).symm
      have hfi : fired = [nd] := (congrArg Prod.snd h1).symm
      subst ht
      obtain ⟨e1, e2, e3, _⟩ := del_spec w hnd hdel
      refine ⟨e1, fun hn => ?_, fun i1 nd1 hi1 hnd1 => ?_⟩
      · rw [hf] at hn; exact Option.noConfusion hn
      · rw [hf] at hi1
        have : i = i1 := Option.some.inj hi1
        subst this
        rw [hnd] at hnd1
        have : nd = nd1 := Option.some.inj hnd1
        subst this
        rw [← hid]
        exact ⟨hfi, e2, e3⟩

theorem tickLoop_spec (tpm : Nat) (clock : Nat → Int) (fuel : Nat) :
    ∀ (k : Nat) (t t1 : HeapTimer) (fired : List TimerNode), WF t →
      tickLoop tpm clock fuel k t = .ok (t1, fired) →
      WF t1 ∧ (fired ++ t1.heap_).Perm t.heap_ ∧
        (∀ x ∈ fired, ∃ j, Int.tdiv (x.expires - clock j) tpm ≤ 0) ∧
        (∀ nd rest, t1.heap_ = nd :: rest → ∃ j, 0 < Int.tdiv (nd.expires - clock j) tpm) := by
  induction fuel with
  | zero => intro k t t1 fired _ h; simp [tickLoop] at h
  | succ fuel ih =>
    intro k t t1 fired w h
    by_cases hnil : t.heap_ = []
    · simp only [tickLoop, hnil] at h
      have h1 := Except.ok.inj h
      have ht : t1 = t := (congrArg Prod.fst h1).symm
      have hf : fired = [] := (congrArg Prod.snd h1).symm
      subst ht; subst hf
      refine ⟨w, by simp, fun x hx => by simp at hx, fun nd rest hr => ?_⟩
      rw [hnil] at hr; exact List.noConfusion hr
    · obtain ⟨node, rest, hh⟩ := List.exists_cons_of_ne_nil hnil
      simp only [tickLoop, hh] at h
      by_cases hexp : Int.tdiv (node.expires - clock k) tpm > 0
      · simp only [hexp, if_true] at h
        have h1 := Except.ok.inj h
        have ht : t1 = t := (congrArg Prod.fst h1).symm
        have hf : fired = [] := (congrArg Prod.snd h1).symm
        subst ht; subst hf
        refine ⟨w, by simp, fun x hx => by simp at hx, fun nd rest1 hr => ?_⟩
        rw [hh] at hr
        have : node = nd := (List.cons.inj hr).1
        subst this
        exact ⟨k, hexp⟩
      · simp only [hexp, if_false] at h
        cases hp : t.pop with
        | error e => simp only [hp] at h; exact Except.noConfusion h
        | ok t2 =>
          simp only [hp] at h
          cases hl : tickLoop tpm clock fuel (k + 1) t2 with
          | error e => simp only [hl] at h; exact Except.noConfusion h
          | ok res =>
            obtain ⟨t3, fired3⟩ := res
            simp only [hl] at h
            have h1 := Except.ok.inj h
            have ht : t1 = t3 := (congrArg Prod.fst h1).symm
            have hf : fired = node :: fired3 := (congrArg Prod.snd h1).symm
            subst ht; subst hf
            obtain ⟨d, rest1, p1, p2, p3, _, _⟩ := pop_spec w hp
            rw [hh] at p1
            have : node = d := (List.cons.inj p1).1
            subst this
            obtain ⟨q1, q2, q3, q4⟩ := ih (k + 1) t2 t1 fired3 p2 hl
            refine ⟨q1, ?_, ?_, q4⟩
            · exact (List.Perm.cons node q2).trans p3
            · intro x hx
              rcases List.mem_cons.1 hx with hx | hx
              · exact ⟨k, by rw [hx]; omega⟩
              · exact q3 x hx

theorem tick_spec {t t1 : HeapTimer} {tpm : Nat} {clock : Nat → Int} {fired : List TimerNode}
    (w : WF t) (h : t.tick tpm clock = .ok (t1, fired)) :
    WF t1 ∧ (fired ++ t1.heap_).Perm t.heap_ ∧
      (∀ x ∈ fired, ∃ j, Int.tdiv (x.expires - clock j) tpm ≤ 0) ∧
      (∀ nd rest, t1.heap_ = nd :: rest → ∃ j, 0 < Int.tdiv (nd.expires - clock j) tpm) := by
  by_cases hh : t.heap_ = []
  · simp only [tick, hh, if_true] at h
    have h1 := Except.ok.inj h
    have ht : t1 = t := (congrArg Prod.fst h1).symm
    have hf : fired = [] := (congrArg Prod.snd h1).symm
    subst ht; subst hf
    refine ⟨w, by simp, fun x hx => by simp at hx, fun nd rest hr => ?_⟩
    rw [hh] at hr; exact List.noConfusion hr
  · simp only [tick, hh, if_false] at h
    exact tickLoop_spec tpm clock _ 0 t t1 fired w h

/-- In heap order the root carries the least expiry. -/
theorem root_le_of_hord {n : Nat} {e : Nat → Int} (ho : HOrd n e) :
    ∀ k, k < n → e 0 ≤ e k := by
  intro k
  induction k using Nat.strong_induction_on with
  | _ k ih =>
    intro hk
    by_cases h0 : k = 0
    · rw [h0]
    · have h1 := ih ((k - 1) / 2) (by omega) (by omega)
      have h2 := ho k (by omega) hk
      omega

theorem RefMap.mem_of_find? {m : RefMap} {k : Int} {v : Nat} (h : RefMap.find? m k = some v) :
    (k, v) ∈ m := by
  induction m with
  | nil => simp [RefMap.find?] at h
  | cons p m ih =>
    obtain ⟨k1, v1⟩ := p
    by_cases h1 : k1 = k
    · simp only [RefMap.find?, h1, if_true, Option.some.injEq] at h
      simp [h1, h]
    · simp only [RefMap.find?, h1, if_false] at h
      exact List.mem_cons_of_mem _ (ih h)

theorem h2_of_check {t : HeapTimer}
    (hf : ∀ i, i < t.heap_.length →
      (t.heap_[i]?).bind (fun nd => t.ref_.find? nd.id) = some i)
    (hb : ∀ p ∈ t.ref_, (t.heap_[p.2]?).map (fun nd => nd.id) = some p.1) : H2 t := by
  intro k i
  constructor
  · intro h
    have := hb (k, i) (RefMap.mem_of_find? h)
    cases hg : t.heap_[i]? with
    | none => simp [hg] at this
    | some nd =>
      simp only [hg, Option.map_some', Option.some.injEq] at this
      exact ⟨nd, rfl, this⟩
  · rintro ⟨nd, h1, h2⟩
    have hi : i < t.heap_.length := (List.getElem?_eq_some_iff.1 h1).1
    have := hf i hi
    simp only [h1, Option.some_bind] at this
    rw [← h2]; exact this

theorem wf_sample1 : WF sample1 :=
  ⟨by unfold Sized; decide, by unfold H1; decide, h2_of_check (by decide) (by decide),
    by unfold H3; decide⟩

theorem wf_sample2 : WF sample2 :=
  ⟨by unfold Sized; decide, by unfold H1; decide, h2_of_check (by decide) (by decide),
    by unfold H3; decide⟩

theorem wf_sample3 : WF sample3 :=
  ⟨by unfold Sized; decide, by unfold H1; decide, h2_of_check (by decide) (by decide),
    by unfold H3; decide⟩

/-! ### Sequences of calls -/

theorem adjust_wf {t t1 : HeapTimer} {tpm : Nat} {now id timeout : Int} (w : WF t)
    (hx : isExtension tpm t (.adjust now id timeout) = true)
    (h : t.adjust tpm now id timeout = .ok t1) : WF t1 := by
  have r := w.refInv
  by_cases hcond : t.heap_ ≠ [] ∧ 0 < t.ref_.count id
  · obtain ⟨i, hf⟩ := RefMap.find?_some_of_count (Nat.pos_iff_ne_zero.1 hcond.2)
    obtain ⟨nd, hnd, _⟩ := r.bwd id i hf
    have hext : nd.expires ≤ now + timeout * tpm := by
      simpa [isExtension, hf, hnd] using hx
    obtain ⟨t2, _, e1, e2, e3, e4, e5, _, _⟩ :=
      adjust_spec t tpm now id timeout i nd w.h1 w.h2 w.h3 hf hnd hext
    rw [e1] at h
    have : t1 = t2 := (Except.ok.inj h).symm
    subst this
    refine ⟨?_, e2, e3, e4⟩
    unfold Sized
    rw [e5.length_eq, List.length_set]
    exact w.sized
  · unfold adjust at h
    rw [if_pos hcond] at h
    exact Except.noConfusion h

theorem step_wf {t t1 : HeapTimer} {tpm : Nat} {op : Op} (w : WF t)
    (hx : isExtension tpm t op = true) (h : step tpm t op = .ok t1) : WF t1 := by
  cases op with
  | add now id timeout cb => exact (add_spec w h).1
  | adjust now id timeout => exact adjust_wf w hx h
  | doWork id =>
    simp only [step] at h
    cases hd : t.doWork id with
    | error e => simp only [hd] at h; exact Except.noConfusion h
    | ok res =>
      obtain ⟨t2, fired⟩ := res
      simp only [hd] at h
      have : t1 = t2 := (Except.ok.inj h).symm
      subst this
      exact (doWork_spec w hd).1
  | tick clock =>
    simp only [step] at h
    cases hd : t.tick tpm clock with
    | error e => simp only [hd] at h; exact Except.noConfusion h
    | ok res =>
      obtain ⟨t2, fired⟩ := res
      simp only [hd] at h
      have : t1 = t2 := (Except.ok.inj h).symm
      subst this
      exact (tick_spec w hd).1
  | pop =>
    obtain ⟨_, _, _, e, _⟩ := pop_spec w h
    exact e
  | clear =>
    simp only [step, clear] at h
    have : t1 = ⟨[], []⟩ := (Except.ok.inj h).symm
    subst this
    exact ⟨by unfold Sized; decide, by unfold H1; decide, h2_of_check (by decide) (by decide),
      by unfold H3; decide⟩

theorem run_wf (tpm : Nat) (ops : List Op) : ∀ (t t1 : HeapTimer), WF t →
    extending tpm t ops = true → run tpm t ops = .ok t1 → WF t1 := by
  induction ops with
  | nil =>
    intro t t1 w _ h
    simp only [run] at h
    have : t1 = t := (Except.ok.inj h).symm
    subst this
    exact w
  | cons op ops ih =>
    intro t t1 w hx h
    simp only [extending, Bool.and_eq_true] at hx
    simp only [run] at h
    cases hs : step tpm t op with
    | error e => simp only [hs] at h; exact Except.noConfusion h
    | ok t2 =>
      simp only [hs] at h hx
      exact ih t2 t1 (step_wf w hx.1 hs) hx.2 h

theorem root_min_of_h1 {t : HeapTimer} (h1 : H1 t) (r : TimerNode) (rest : List TimerNode)
    (hh : t.heap_ = r :: rest) : ∀ x ∈ t.heap_, r.expires ≤ x.expires := by
  intro x hx
  obtain ⟨k, hk, hget⟩ := List.getElem_of_mem hx
  have := root_le_of_hord ((h1_iff_hord t).1 h1) k hk
  have e0 : expAt t.heap_ 0 = r.expires := by simp [expAt, hh]
  have ek : expAt t.heap_ k = x.expires := by
    simp [expAt, List.getElem?_eq_getElem hk, hget]
  rw [e0, ek] at this
  exact this

/-! ### The iteration bounds of the model are never reached -/

theorem siftupLoop_ne_noFuel (fuel : Nat) : ∀ (t : HeapTimer) (i : Nat), Sized t →
    i < t.heap_.length → i < fuel → siftupLoop fuel t i (decr i / 2) ≠ .error .noFuel := by
  induction fuel with
  | zero => intro t i _ _ hf; omega
  | succ fuel ih =>
    intro t i hs hi hf h
    have hs1 : t.heap_.length ≤ maxSize := hs
    by_cases h0 : i = 0
    · subst h0
      rw [decr_zero] at h
      have : t.heap_[maxSize]? = none := List.getElem?_eq_none hs1
      simp [siftupLoop, rd, this] at h
    · have hpos : 0 < i := Nat.pos_of_ne_zero h0
      rw [decr_of_pos hpos (by omega)] at h
      have hpl : (i - 1) / 2 < t.heap_.length := by omega
      obtain ⟨a, ha1, ha2, _⟩ := rd_of_lt hpl
      obtain ⟨b, hb1, hb2, _⟩ := rd_of_lt hi
      by_cases hlt : a.lt b = true
      · simp [siftupLoop, ha2, hb2, hlt] at h
      · simp only [siftupLoop, ha2, hb2, hlt] at h
        have hsw := SwapNode_eq hb1 ha1
        have hlen : (t.SwapNode_ i ((i - 1) / 2)).heap_.length = t.heap_.length := by
          rw [hsw]; simp
        have hs2 : Sized (t.SwapNode_ i ((i - 1) / 2)) := by
          unfold Sized; rw [hlen]; exact hs1
        by_cases hp0 : (i - 1) / 2 = 0
        · rw [hp0] at h
          exact ih (t.SwapNode_ i 0) 0 (by rw [← hp0]; exact hs2)
            (by rw [← hp0, hlen]; omega) (by omega) h
        · have hdec : decr ((i - 1) / 2) / 2 = ((i - 1) / 2 - 1) / 2 :=
            decr_of_pos (Nat.pos_of_ne_zero hp0) (by omega)
          have h2 : siftupLoop fuel (t.SwapNode_ i ((i - 1) / 2)) ((i - 1) / 2)
              (decr ((i - 1) / 2) / 2) = .error .noFuel := h
          exact ih _ ((i - 1) / 2) hs2 (by rw [hlen]; exact hpl) (by omega) h2

theorem siftup_ne_noFuel {t : HeapTimer} {i : Nat} (hs : Sized t) (hi : i < t.heap_.length) :
    siftup_ t i ≠ .error .noFuel := by
  intro h
  have hne : t.heap_.length ≠ 0 := by omega
  simp only [siftup_, hne, if_false] at h
  exact siftupLoop_ne_noFuel (i + 1) t i hs hi (by omega) h

theorem repair_ne_noFuel {t : HeapTimer} {n i : Nat} (hs : Sized t) (hi : i < n)
    (hn : n ≤ t.heap_.length) (r : RefInv t) :
    (match siftdown_ t i n with
      | .error e => Except.error e
      | .ok (moved, t2) => if !moved then siftup_ t2 i else Except.ok t2) ≠
      .error .noFuel := by
  obtain ⟨moved, t2, e1, _, e3, _, _, _, _⟩ := siftdown_spec hi hn r
  rw [e1]
  have hlen : t2.heap_.length = t.heap_.length := e3.length_eq
  cases moved with
  | true => simp
  | false =>
    simp only [Bool.not_false, if_true]
    exact siftup_ne_noFuel (by unfold Sized; rw [hlen]; exact hs) (by omega)

theorem del_ne_noFuel {t : HeapTimer} (w : WF t) (i : Nat) : t.del_ i ≠ .error .noFuel := by
  have r := w.refInv
  have hs : t.heap_.length ≤ maxSize := w.sized
  intro h
  by_cases hcond : t.heap_ ≠ [] ∧ i < t.heap_.length
  · have hi := hcond.2
    have hin1 : i ≤ t.heap_.length - 1 := by omega
    unfold del_ at h
    rw [if_neg (not_not_intro hcond)] at h
    dsimp only at h
    rw [if_neg (not_not_intro hin1)] at h
    by_cases hlt : i < t.heap_.length - 1
    · obtain ⟨d, hd, -, -⟩ := rd_of_lt hi
      obtain ⟨x, hx, -, -⟩ := rd_of_lt (h := t.heap_) (k := t.heap_.length - 1) (by omega)
      have hsw := SwapNode_eq hd hx
      have r0 := r.swap hd hx
      have hlen0 : (t.SwapNode_ i (t.heap_.length - 1)).heap_.length = t.heap_.length := by
        rw [hsw]; simp
      have hrep := repair_ne_noFuel (t := t.SwapNode_ i (t.heap_.length - 1))
        (n := t.heap_.length - 1) (i := i) (by unfold Sized; rw [hlen0]; exact hs) hlt
        (by rw [hlen0]; omega) r0
      simp only [hlt, if_true] at h
      cases hsd : siftdown_ (t.SwapNode_ i (t.heap_.length - 1)) i (t.heap_.length - 1) with
      | error e =>
        simp only [hsd] at h hrep
        exact hrep h
      | ok res =>
        obtain ⟨moved, t2⟩ := res
        simp only [hsd] at h hrep
        cases hr : (if !moved then siftup_ t2 i else Except.ok t2) with
        | error e =>
          simp only [hr] at h hrep
          exact hrep h
        | ok t3 =>
          simp only [hr] at h
          cases hl : t3.heap_.getLast? with
          | none => simp [hl] at h
          | some b => simp [hl] at h
    · simp only [hlt, if_false] at h
      cases hl : t.heap_.getLast? with
      | none => simp [hl] at h
      | some b => simp [hl] at h
  · unfold del_ at h
    rw [if_pos hcond] at h
    exact Fault.noConfusion (Except.error.inj h)

theorem add_ne_noFuel {t : HeapTimer} (w : WF t) (tpm : Nat) (now id timeout : Int)
    (cb : Nat) : t.add tpm now id timeout cb ≠ .error .noFuel := by
  have r := w.refInv
  have hs : t.heap_.length ≤ maxSize := w.sized
  intro h
  by_cases hneg : id < 0
  · simp [add, hneg] at h
  · by_cases hc : t.ref_.count id = 0
    · by_cases hmax : maxSize ≤ t.heap_.length
      · simp [add, hneg, hc, hmax] at h
      · simp only [add, hneg, hc, hmax, if_false, if_true] at h
        exact siftup_ne_noFuel (by unfold Sized; simp; omega) (by simp) h
    · obtain ⟨i, hf⟩ := RefMap.find?_some_of_count hc
      obtain ⟨nd, hnd, _⟩ := r.bwd id i hf
      have hi : i < t.heap_.length := (List.getElem?_eq_some_iff.1 hnd).1
      have hrd : rd t.heap_ i = .ok nd := by simp [rd, hnd]
      simp only [add, hneg, hc, if_false, RefMap.idx_of_find? hf, hrd] at h
      have hlen0 : (t.heap_.set i ⟨nd.id, now + timeout * tpm, cb⟩).length = t.heap_.length := by
        simp
      exact repair_ne_noFuel (t := ⟨t.heap_.set i ⟨nd.id, now + timeout * tpm, cb⟩, t.ref_⟩)
        (n := (t.heap_.set i ⟨nd.id, now + timeout * tpm, cb⟩).length)
        (by unfold Sized; rw [hlen0]; exact hs) (by rw [hlen0]; exact hi) (le_refl _)
        (r.set hnd _ _) h

theorem adjust_ne_noFuel {t : HeapTimer} (w : WF t) (tpm : Nat) (now id timeout : Int) :
    t.adjust tpm now id timeout ≠ .error .noFuel := by
  have r := w.refInv
  intro h
  by_cases hcond : t.heap_ ≠ [] ∧ 0 < t.ref_.count id
  · obtain ⟨i, hf⟩ := RefMap.find?_some_of_count (Nat.pos_iff_ne_zero.1 hcond.2)
    obtain ⟨nd, hnd, _⟩ := r.bwd id i hf
    have hi : i < t.heap_.length := (List.getElem?_eq_some_iff.1 hnd).1
    have hrd : rd t.heap_ i = .ok nd := by simp [rd, hnd]
    have hlen0 : (t.heap_.set i ⟨nd.id, now + timeout * tpm, nd.cb⟩).length =
        t.heap_.length := by simp
    obtain ⟨moved, t2, e1, _⟩ := siftdown_spec
      (t := ⟨t.heap_.set i ⟨nd.id, now + timeout * tpm, nd.cb⟩, t.ref_⟩)
      (n := t.heap_.length) (i := i) hi (le_of_eq hlen0.symm) (r.set hnd _ _)
    unfold adjust at h
    rw [if_neg (not_not_intro hcond)] at h
    simp only [RefMap.idx_of_find? hf, hrd, List.length_set] at h
    rw [e1] at h
    exact Except.noConfusion h
  · unfold adjust at h
    rw [if_pos hcond] at h
    exact Fault.noConfusion (Except.error.inj h)

theorem pop_ne_noFuel {t : HeapTimer} (w : WF t) : t.pop ≠ .error .noFuel := by
  intro h
  by_cases hne : t.heap_ = []
  · simp [pop, hne] at h
  · simp only [pop, hne, if_false] at h
    exact del_ne_noFuel w 0 h

theorem doWork_ne_noFuel {t : HeapTimer} (w : WF t) (id : Int) :
    t.doWork id ≠ .error .noFuel := by
  intro h
  by_cases hc : t.heap_ = [] ∨ t.ref_.count id = 0
  · simp [doWork, hc] at h
  · simp only [doWork, hc, if_false] at h
    cases hrd : rd t.heap_ (t.ref_.idx id) with
    | error e =>
      simp only [hrd] at h
      have he := Except.error.inj h
      subst he
      unfold rd at hrd
      cases hg : t.heap_[t.ref_.idx id]? with
      | none => simp [hg] at hrd
      | some x => simp [hg] at hrd
    | ok node =>
      simp only [hrd] at h
      cases hd : t.del_ (t.ref_.idx id) with
      | error e =>
        simp only [hd] at h
        have he := Except.error.inj h
        subst he
        exact del_ne_noFuel w _ hd
      | ok t1 => simp [hd] at h

theorem tickLoop_ne_noFuel (tpm : Nat) (clock : Nat → Int) (fuel : Nat) :
    ∀ (k : Nat) (t : HeapTimer), WF t → t.heap_.length < fuel →
      tickLoop tpm clock fuel k t ≠ .error .noFuel := by
  induction fuel with
  | zero => intro k t _ hf; omega
  | succ fuel ih =>
    intro k t w hf h
    by_cases hnil : t.heap_ = []
    · simp [tickLoop, hnil] at h
    · obtain ⟨node, rest, hh⟩ := List.exists_cons_of_ne_nil hnil
      simp only [tickLoop, hh] at h
      by_cases hexp : Int.tdiv (node.expires - clock k) tpm > 0
      · simp [hexp] at h
      · simp only [hexp, if_false] at h
        cases hp : t.pop with
        | error e =>
          simp only [hp] at h
          have he := Except.error.inj h
          subst he
          exact pop_ne_noFuel w hp
        | ok t2 =>
          simp only [hp] at h
          obtain ⟨_, _, _, p2, _, _, p5⟩ := pop_spec w hp
          cases hl : tickLoop tpm clock fuel (k + 1) t2 with
          | error e =>
            simp only [hl] at h
            have he := Except.error.inj h
            subst he
            exact ih (k + 1) t2 p2 (by omega) hl
          | ok res => simp [hl] at h

theorem tick_ne_noFuel {t : HeapTimer} (w : WF t) (tpm : Nat) (clock : Nat → Int) :
    t.tick tpm clock ≠ .error .noFuel := by
  intro h
  by_cases hh : t.heap_ = []
  · simp [tick, hh] at h
  · simp only [tick, hh, if_false] at h
    exact tickLoop_ne_noFuel tpm clock _ 0 t w (by omega) h

theorem step_ne_noFuel {t : HeapTimer} (w : WF t) (tpm : Nat) (op : Op) :
    step tpm t op ≠ .error .noFuel := by
  intro h
  cases op with
  | add now id timeout cb => exact add_ne_noFuel w tpm now id timeout cb h
  | adjust now id timeout => exact adjust_ne_noFuel w tpm now id timeout h
  | doWork id =>
    simp only [step] at h
    cases hd : t.doWork id with
    | error e =>
      simp only [hd] at h
      have he := Except.error.inj h
      subst he
      exact doWork_ne_noFuel w id hd
    | ok res => simp [hd] at h
  | tick clock =>
    simp only [step] at h
    cases hd : t.tick tpm clock with
    | error e =>
      simp only [hd] at h
      have he := Except.error.inj h
      subst he
      exact tick_ne_noFuel w tpm clock hd
    | ok res => simp [hd] at h
  | pop => exact pop_ne_noFuel w h
  | clear => simp [step] at h

theorem run_ne_noFuel (tpm : Nat) (ops : List Op) : ∀ (t : HeapTimer), WF t →
    extending tpm t ops = true → run tpm t ops ≠ .error .noFuel := by
  induction ops with
  | nil => intro t _ _ h; simp [run] at h
  | cons op ops ih =>
    intro t w hx h
    simp only [extending, Bool.and_eq_true] at hx
    simp only [run] at h
    cases hs : step tpm t op with
    | error e =>
      simp only [hs] at h
      have he := Except.error.inj h
      subst he
      exact step_ne_noFuel w tpm op hs
    | ok t2 =>
      simp only [hs] at h hx
      exact ih t2 (step_wf w hx.1 hs) hx.2 h

/-! ## The claims -/

/-- C1, as stated, fails: the first `add` on the empty timer reads `heap_[2^63 - 1]` (the
parent index `(0 - 1) / 2` of the root in `size_t`), and `adjust` with an expiry before the
current one leaves a child below its parent. -/
theorem h1_not_kept_by_every_call :
    run 1 HeapTimer.empty [.add 0 1 10 1] = .error (.outOfRange 9223372036854775807 1) ∧
      WF sample2 ∧
      run 1 sample2 [.adjust 0 2 5] = .ok ⟨[⟨1, 10, 1⟩, ⟨2, 5, 2⟩], [(1, 0), (2, 1)]⟩ ∧
      ¬ H1 ⟨[⟨1, 10, 1⟩, ⟨2, 5, 2⟩], [(1, 0), (2, 1)]⟩ :=
  ⟨rfl, wf_sample2, rfl, by unfold H1; decide⟩

/-- C1, amended: from any state satisfying H1, H2 and H3, a finite sequence of `add`,
`adjust`, `doWork`, `tick`, `pop` and `clear` in which every `adjust` is an extension either
leaves defined behaviour in one of its calls (never by the iteration bound of the model) or
ends in a state in which H1 holds and the root carries the least expiry. -/
theorem h1_kept_by_completed_calls (tpm : Nat) (t : HeapTimer) (ops : List Op)
    (hs : Sized t) (h1 : H1 t) (h2 : H2 t) (h3 : H3 t)
    (hx : extending tpm t ops = true) :
    run tpm t ops ≠ .error .noFuel ∧
      ∀ t1, run tpm t ops = .ok t1 →
        H1 t1 ∧ ∀ r rest, t1.heap_ = r :: rest → ∀ x ∈ t1.heap_, r.expires ≤ x.expires := by
  refine ⟨run_ne_noFuel tpm ops t ⟨hs, h1, h2, h3⟩ hx, fun t1 h => ?_⟩
  have w := run_wf tpm ops t t1 ⟨hs, h1, h2, h3⟩ hx h
  exact ⟨w.h1, fun r rest hh => root_min_of_h1 w.h1 r rest hh⟩

/-- A run of five calls on a one-node heap that completes, with the state it ends in. -/
theorem h1_kept_by_completed_calls_witness :
    (Sized sample1 ∧ H1 sample1 ∧ H2 sample1 ∧ H3 sample1) ∧
      run 1 sample1 [.add 0 2 20 2, .add 0 3 30 3, .adjust 0 2 50, .tick (fun _ => 5),
        .doWork 3] = .ok ⟨[⟨1, 10, 1⟩, ⟨2, 50, 2⟩], [(1, 0), (2, 1)]⟩ ∧
      (H1 ⟨[⟨1, 10, 1⟩, ⟨2, 50, 2⟩], [(1, 0), (2, 1)]⟩ ∧
        ∀ r rest, (⟨[⟨1, 10, 1⟩, ⟨2, 50, 2⟩], [(1, 0), (2, 1)]⟩ : HeapTimer).heap_ = r :: rest →
          ∀ x ∈ (⟨[⟨1, 10, 1⟩, ⟨2, 50, 2⟩], [(1, 0), (2, 1)]⟩ : HeapTimer).heap_,
            r.expires ≤ x.expires) :=
  ⟨⟨wf_sample1.sized, wf_sample1.h1, wf_sample1.h2, wf_sample1.h3⟩, rfl,
    (h1_kept_by_completed_calls 1 sample1
      [.add 0 2 20 2, .add 0 3 30 3, .adjust 0 2 50, .tick (fun _ => 5), .doWork 3]
      wf_sample1.sized wf_sample1.h1 wf_sample1.h2 wf_sample1.h3 rfl).2 _ rfl⟩

/-- C2: the first `add` on the empty timer does not produce a state at all: `siftup_(0)`
computes the parent index `(0 - 1) / 2 = 2^63 - 1` and reads `heap_` there. -/
theorem first_add_reads_out_of_range :
    run 1 HeapTimer.empty [.add 0 7 30 1] = .error (.outOfRange 9223372036854775807 1) :=
  rfl

/-- C3: draining a heap of two nodes stops at the first `pop`: after the exchange of the root
with the last node, `siftdown_(0, 1)` reports no move and `siftup_(0)` reads
`heap_[2^63 - 1]`. -/
theorem drain_of_two_nodes_reads_out_of_range :
    WF sample2 ∧
      sample2.tick 1 (fun _ => 100) = .error (.outOfRange 9223372036854775807 2) :=
  ⟨wf_sample2, rfl⟩

/-- C5: `add` of a fresh id to the empty timer never completes: whatever the id, timeout and
callback, `siftup_(0)` reads `heap_[2^63 - 1]` of a vector of size 1. -/
theorem add_to_empty_reads_out_of_range (tpm : Nat) (now id timeout : Int) (cb : Nat)
    (hid : 0 ≤ id) :
    HeapTimer.empty.add tpm now id timeout cb = .error (.outOfRange (2 ^ 63 - 1) 1) := by
  have hneg : ¬ id < 0 := by omega
  simp [add, HeapTimer.empty, hneg, RefMap.count, RefMap.find?, maxSize, siftup_, siftupLoop,
    decr, rd]

/-- The call `add(7, 30, cb)` on the empty timer. -/
theorem add_to_empty_reads_out_of_range_witness :
    (0 : Int) ≤ 7 ∧
      HeapTimer.empty.add 1 0 7 30 1 = .error (.outOfRange (2 ^ 63 - 1) 1) :=
  ⟨by decide, add_to_empty_reads_out_of_range 1 0 7 30 1 (by decide)⟩

/-- C6: re-arming the only timer of the heap does not complete, whether the new expiry is
before or after the old one: `siftdown_` reports no move and `siftup_(0)` reads
`heap_[2^63 - 1]`. -/
theorem add_of_present_root_reads_out_of_range :
    WF sample1 ∧
      sample1.add 1 0 1 5 7 = .error (.outOfRange 9223372036854775807 1) ∧
      sample1.add 1 0 1 50 7 = .error (.outOfRange 9223372036854775807 1) :=
  ⟨wf_sample1, rfl, rfl⟩

/-- C7: deleting the root of a heap of two nodes does not complete: after the exchange with
the last node `siftdown_(0, 1)` reports no move and `siftup_(0)` reads `heap_[2^63 - 1]`. -/
theorem del_of_root_reads_out_of_range :
    WF sample2 ∧
      sample2.del_ 0 = .error (.outOfRange 9223372036854775807 2) ∧
      sample2.pop = .error (.outOfRange 9223372036854775807 2) :=
  ⟨wf_sample2, rfl, rfl⟩

/-- C8: `adjust(id, timeout)` on a present id with `now + timeout` not before the node's current
expiry completes, replaces that node's expiry by `now + timeout` and changes nothing else
(the nodes of the result are those of the heap with that one node updated), and the result
satisfies H1, H2 and H3. -/
theorem adjust_extension_keeps_heap (t : HeapTimer) (tpm : Nat) (now id timeout : Int)
    (i : Nat) (nd : TimerNode) (h1 : H1 t) (h2 : H2 t) (h3 : H3 t)
    (hf : t.ref_.find? id = some i) (hnd : t.heap_[i]? = some nd)
    (hext : nd.expires ≤ now + timeout * tpm) :
    ∃ (t1 : HeapTimer) (i1 : Nat), t.adjust tpm now id timeout = .ok t1 ∧
      H1 t1 ∧ H2 t1 ∧ H3 t1 ∧
      t1.heap_.Perm (t.heap_.set i ⟨nd.id, now + timeout * tpm, nd.cb⟩) ∧
      t1.ref_.find? id = some i1 ∧
      t1.heap_[i1]? = some ⟨id, now + timeout * tpm, nd.cb⟩ :=
  adjust_spec t tpm now id timeout i nd h1 h2 h3 hf hnd hext

/-- An extension of the root of a three-node heap, with the state it ends in. -/
theorem adjust_extension_keeps_heap_witness :
    (H1 sample3 ∧ H2 sample3 ∧ H3 sample3 ∧ sample3.ref_.find? 1 = some 0 ∧
        sample3.heap_[0]? = some ⟨1, 10, 1⟩ ∧
        (⟨1, 10, 1⟩ : TimerNode).expires ≤ 0 + 50 * ((1 : Nat) : Int)) ∧
      sample3.adjust 1 0 1 50 =
        .ok ⟨[⟨2, 20, 2⟩, ⟨1, 50, 1⟩, ⟨3, 20, 3⟩], [(1, 1), (2, 0), (3, 2)]⟩ ∧
      ∃ (t1 : HeapTimer) (i1 : Nat), sample3.adjust 1 0 1 50 = .ok t1 ∧
        H1 t1 ∧ H2 t1 ∧ H3 t1 ∧
        t1.heap_.Perm (sample3.heap_.set 0 ⟨1, 0 + 50 * ((1 : Nat) : Int), 1⟩) ∧
        t1.ref_.find? 1 = some i1 ∧
        t1.heap_[i1]? = some ⟨1, 0 + 50 * ((1 : Nat) : Int), 1⟩ :=
  ⟨⟨wf_sample3.h1, wf_sample3.h2, wf_sample3.h3, rfl, rfl, by decide⟩, rfl,
    adjust_extension_keeps_heap sample3 1 0 1 50 0 ⟨1, 10, 1⟩ wf_sample3.h1 wf_sample3.h2
      wf_sample3.h3 rfl rfl (by decide)⟩

/-- C9: `doWork` on the root of a heap of two nodes does not complete: the callback is
invoked and the following `del_(0)` reads `heap_[2^63 - 1]`. -/
theorem doWork_of_root_reads_out_of_range :
    WF sample2 ∧ sample2.ref_.find? 1 = some 0 ∧
      sample2.doWork 1 = .error (.outOfRange 9223372036854775807 2) :=
  ⟨wf_sample2, rfl, rfl⟩

/-- C10: the result of `GetNextTick` is not clamped: `res` is a `size_t`, so `res < 0` never
holds, and with the root 5 ms (1 ms) in the past at the second clock reading the call on a
non-empty heap returns `-5` (`-1`, the value reserved for the empty heap). -/
theorem getNextTick_returns_negative :
    sample1.GetNextTick 1 (fun _ => 0) 15 = .ok (-5, sample1, []) ∧
      sample1.GetNextTick 1 (fun _ => 0) 11 = .ok (-1, sample1, []) ∧
      sample1.heap_ ≠ [] :=
  ⟨rfl, rfl, by decide⟩

/-! ### `siftup_` at the root -/

theorem below_lt {r c : Nat} (h : Below r c) : r < c := by
  induction h with
  | child c h0 hp => omega
  | step c h0 _ ih => omega

/-- A node that is not above any of its ancestors is carried to the root by `siftup_`, and
the iteration after that reads `heap_[2^63 - 1]`. -/
theorem siftupLoop_faults (fuel : Nat) : ∀ (t : HeapTimer) (i : Nat), Sized t →
    i < t.heap_.length → i < fuel →
    (∀ k, Below k i → expAt t.heap_ i ≤ expAt t.heap_ k) →
    siftupLoop fuel t i (decr i / 2) = .error (.outOfRange maxSize t.heap_.length) := by
  induction fuel with
  | zero => intro t i _ _ hf; omega
  | succ fuel ih =>
    intro t i hs hi hf hle
    have hs1 : t.heap_.length ≤ maxSize := hs
    by_cases h0 : i = 0
    · subst h0
      rw [decr_zero]
      have : t.heap_[maxSize]? = none := List.getElem?_eq_none hs1
      simp [siftupLoop, rd, this]
    · have hpos : 0 < i := Nat.pos_of_ne_zero h0
      rw [decr_of_pos hpos (by omega)]
      have hpl : (i - 1) / 2 < t.heap_.length := by omega
      obtain ⟨a, ha1, ha2, ha3⟩ := rd_of_lt hpl
      obtain ⟨b, hb1, hb2, hb3⟩ := rd_of_lt hi
      have hlt : ¬ a.lt b = true := by
        intro hh
        have h1 := (lt_iff_expires a b).1 hh
        have h2 := hle ((i - 1) / 2) (Below.child i hpos rfl)
        rw [ha3, hb3] at h2
        omega
      have hsw := SwapNode_eq hb1 ha1
      have hlen : (t.SwapNode_ i ((i - 1) / 2)).heap_.length = t.heap_.length := by
        rw [hsw]; simp
      have hs2 : Sized (t.SwapNode_ i ((i - 1) / 2)) := by
        unfold Sized; rw [hlen]; exact hs1
      have hrec := ih (t.SwapNode_ i ((i - 1) / 2)) ((i - 1) / 2) hs2
        (by rw [hlen]; exact hpl) (by omega) (by
          intro k hk
          have hkl := below_lt hk
          rw [hsw]
          simp only [expAt_swap hb1 ha1, swapF]
          have h1 : k ≠ (i - 1) / 2 := by omega
          have h2 : k ≠ i := by omega
          simp only [h1, h2, if_false, if_true]
          exact hle k (Below.step i hpos hk))
      rw [hlen] at hrec
      simp only [siftupLoop, ha2, hb2, hlt]
      exact hrec

/-- C11: `siftup_(0)` never stays inside the vector: the parent index computed for the root
is `(0 - 1) / 2 = 2^63 - 1` in `size_t`, not the root itself, and on every non-empty heap the
first iteration reads `heap_` there; this is the call made by `add` on the empty timer. -/
theorem siftup_of_root_reads_out_of_range (t : HeapTimer) (hs : Sized t) (hne : t.heap_ ≠ []) :
    decr 0 / 2 = 2 ^ 63 - 1 ∧
      t.siftup_ 0 = .error (.outOfRange (2 ^ 63 - 1) t.heap_.length) := by
  have hlen : 0 < t.heap_.length := List.length_pos.2 hne
  refine ⟨decr_zero, ?_⟩
  have hne0 : t.heap_.length ≠ 0 := by omega
  simp only [siftup_, hne0, if_false]
  exact siftupLoop_faults 1 t 0 hs hlen (by omega)
    (fun k hk => absurd (below_lt hk) (Nat.not_lt_zero k))

/-- The heap that `add(7, 30, cb)` on the empty timer hands to `siftup_(0)`. -/
theorem siftup_of_root_reads_out_of_range_witness :
    (Sized ⟨[⟨7, 30, 1⟩], [(7, 0)]⟩ ∧ (⟨[⟨7, 30, 1⟩], [(7, 0)]⟩ : HeapTimer).heap_ ≠ []) ∧
      decr 0 / 2 = 2 ^ 63 - 1 ∧
      (⟨[⟨7, 30, 1⟩], [(7, 0)]⟩ : HeapTimer).siftup_ 0 =
        .error (.outOfRange (2 ^ 63 - 1)
          (⟨[⟨7, 30, 1⟩], [(7, 0)]⟩ : HeapTimer).heap_.length) :=
  ⟨⟨by unfold Sized; decide, by decide⟩,
    siftup_of_root_reads_out_of_range ⟨[⟨7, 30, 1⟩], [(7, 0)]⟩ (by unfold Sized; decide)
      (by decide)⟩

/-! ### `SwapNode_` -/

theorem SwapNode_of_out_of_range {t : HeapTimer} {i j : Nat}
    (h : t.heap_.length ≤ i ∨ t.heap_.length ≤ j) : t.SwapNode_ i j = t := by
  unfold SwapNode_
  by_cases hi : t.heap_.length ≤ i
  · simp [hi]
  · have hj : t.heap_.length ≤ j := by
      rcases h with h | h
      · exact absurd h hi
      · exact h
    simp [hi, hj]

/-- An exchange of two positions keeps H2; H3 is not needed for it. -/
theorem h2_swap {t : HeapTimer} (h2 : H2 t) {i j : Nat} {a b : TimerNode}
    (hi : t.heap_[i]? = some a) (hj : t.heap_[j]? = some b) : H2 (t.SwapNode_ i j) := by
  have fwd : ∀ k nd, t.heap_[k]? = some nd → t.ref_.find? nd.id = some k :=
    fun k nd h => (h2 nd.id k).2 ⟨nd, h, rfl⟩
  have inj : ∀ {k l : Nat} {x y : TimerNode}, t.heap_[k]? = some x → t.heap_[l]? = some y →
      x.id = y.id → k = l := by
    intro k l x y hk hl hid
    have e1 := fwd k x hk
    have e2 := fwd l y hl
    rw [hid, e2] at e1
    exact (Option.some.inj e1).symm
  rw [SwapNode_eq hi hj]
  intro k v
  constructor
  · intro hk
    simp only [] at hk ⊢
    by_cases hka : k = a.id
    · subst hka
      rw [RefMap.find?_assign_self] at hk
      have : v = j := (Option.some.inj hk).symm
      subst this
      exact ⟨a, by simp [getElem?_swap hi hj], rfl⟩
    · rw [RefMap.find?_assign_ne _ _ hka] at hk
      by_cases hkb : k = b.id
      · subst hkb
        rw [RefMap.find?_assign_self] at hk
        have : v = i := (Option.some.inj hk).symm
        subst this
        have hij : v ≠ j := fun hh => hka (by
          subst hh; rw [hi] at hj; rw [Option.some.inj hj])
        exact ⟨b, by simp [getElem?_swap hi hj, hij], rfl⟩
      · rw [RefMap.find?_assign_ne _ _ hkb] at hk
        obtain ⟨nd, hnd, hid⟩ := (h2 k v).1 hk
        have hvj : v ≠ j := fun hh => hkb (by
          subst hh; rw [hnd] at hj; rw [← hid, Option.some.inj hj])
        have hvi : v ≠ i := fun hh => hka (by
          subst hh; rw [hnd] at hi; rw [← hid, Option.some.inj hi])
        exact ⟨nd, by simp [getElem?_swap hi hj, hvj, hvi, hnd], hid⟩
  · rintro ⟨nd, hnd, hid⟩
    simp only [getElem?_swap hi hj v] at hnd
    simp only []
    rw [← hid]
    by_cases hvj : v = j
    · simp only [hvj, if_true, Option.some.injEq] at hnd
      subst hnd; subst hvj
      exact RefMap.find?_assign_self _ _ _
    · by_cases hvi : v = i
      · have hij : i ≠ j := fun hh => hvj (hvi.trans hh)
        simp only [hvi, hij, if_false, if_true, Option.some.injEq] at hnd
        subst hnd; subst hvi
        have hne : b.id ≠ a.id := fun hh => hvj (inj hj hi hh).symm
        rw [RefMap.find?_assign_ne _ _ hne]
        exact RefMap.find?_assign_self _ _ _
      · simp only [hvj, hvi, if_false] at hnd
        have e1 : nd.id ≠ a.id := fun hh => hvi (inj hnd hi hh)
        have e2 : nd.id ≠ b.id := fun hh => hvj (inj hnd hj hh)
        rw [RefMap.find?_assign_ne _ _ e1, RefMap.find?_assign_ne _ _ e2]
        exact fwd v nd hnd

/-- C12: `SwapNode_(i, j)` with `i` or `j` outside the vector returns with `heap_` and `ref_`
as they were; with both inside it exchanges `heap_[i]` and `heap_[j]`, leaves every other
position alone, and updates `ref_` so that H2 still holds. -/
theorem swapNode_out_of_range_changes_nothing (t : HeapTimer) (i j : Nat) :
    ((t.heap_.length ≤ i ∨ t.heap_.length ≤ j) → t.SwapNode_ i j = t) ∧
      ∀ a b, t.heap_[i]? = some a → t.heap_[j]? = some b →
        (t.SwapNode_ i j).heap_[i]? = some b ∧ (t.SwapNode_ i j).heap_[j]? = some a ∧
          (∀ k, k ≠ i → k ≠ j → (t.SwapNode_ i j).heap_[k]? = t.heap_[k]?) ∧
          (H2 t → H2 (t.SwapNode_ i j)) := by
  refine ⟨SwapNode_of_out_of_range, fun a b hi hj => ?_⟩
  have hsw := SwapNode_eq hi hj
  refine ⟨?_, ?_, fun k hki hkj => ?_, fun h2 => h2_swap h2 hi hj⟩
  · rw [hsw]
    simp only [getElem?_swap hi hj i]
    by_cases hij : i = j
    · subst hij
      rw [hi] at hj
      simp [hj]
    · simp [hij]
  · rw [hsw]
    simp [getElem?_swap hi hj j]
  · rw [hsw]
    simp [getElem?_swap hi hj k, hki, hkj]

/-- A swap with index 5 on two nodes, and the swap of the two nodes. -/
theorem swapNode_out_of_range_changes_nothing_witness :
    sample2.SwapNode_ 0 5 = sample2 ∧ sample2.SwapNode_ 5 0 = sample2 ∧
      sample2.SwapNode_ 0 1 = ⟨[⟨2, 20, 2⟩, ⟨1, 10, 1⟩], [(1, 1), (2, 0)]⟩ ∧
      H2 (sample2.SwapNode_ 0 1) :=
  ⟨(swapNode_out_of_range_changes_nothing sample2 0 5).1 (Or.inr (by decide)),
    (swapNode_out_of_range_changes_nothing sample2 5 0).1 (Or.inl (by decide)),
    rfl,
    ((swapNode_out_of_range_changes_nothing sample2 0 1).2 ⟨1, 10, 1⟩ ⟨2, 20, 2⟩ rfl rfl).2.2.2
      wf_sample2.h2⟩

/-- C17: the loop of `siftup_` does not stop when the sifted node is less than or equal to all
of its ancestors: the node is exchanged up to the root, and since the guard `j >= 0` holds
for the parent index `(0 - 1) / 2 = 2^63 - 1` the next iteration reads `heap_` outside the
vector. -/
theorem siftup_to_root_reads_out_of_range (t : HeapTimer) (i : Nat) (hs : Sized t)
    (hi : i < t.heap_.length)
    (hle : ∀ k, Below k i → expAt t.heap_ i ≤ expAt t.heap_ k) :
    t.siftup_ i = .error (.outOfRange (2 ^ 63 - 1) t.heap_.length) := by
  have hne0 : t.heap_.length ≠ 0 := by omega
  simp only [siftup_, hne0, if_false]
  exact siftupLoop_faults (i + 1) t i hs hi (by omega) hle

/-- The node of expiry 5 appended below a root of expiry 10 and sifted up from index 1. -/
theorem siftup_to_root_reads_out_of_range_witness :
    (Sized sample2r ∧ 1 < sample2r.heap_.length ∧
        ∀ k, Below k 1 → expAt sample2r.heap_ 1 ≤ expAt sample2r.heap_ k) ∧
      sample2r.siftup_ 1 = .error (.outOfRange (2 ^ 63 - 1) sample2r.heap_.length) :=
  have hle : ∀ k, Below k 1 → expAt sample2r.heap_ 1 ≤ expAt sample2r.heap_ k := by
    intro k hk
    have hk0 : k = 0 := by have := below_lt hk; omega
    subst hk0
    decide
  ⟨⟨by unfold Sized; decide, by decide, hle⟩,
    siftup_to_root_reads_out_of_range sample2r 1 (by unfold Sized; decide) (by decide) hle⟩

/-! ### `siftdown_` on an arbitrary heap -/

theorem hordIn_of_downInvIn {R : Nat → Prop} {n : Nat} {e : Nat → Int} {i : Nat}
    (h : DownInvIn R n e i)
    (hc : ∀ c, 0 < c → c < n → (c - 1) / 2 = i → e i ≤ e c) : HOrdIn R n e := by
  intro c hr h0 hn
  by_cases h1 : (c - 1) / 2 = i
  · rw [h1]; exact hc c h0 hn h1
  · by_cases h2 : c = i
    · subst h2; exact h.2.2 hr h0 hn
    · exact h.1 c hr h0 hn h2 h1

theorem downInvIn_step {R : Nat → Prop} {n : Nat} {e : Nat → Int} {i j : Nat}
    (hcl : ∀ c, 0 < c → R ((c - 1) / 2) → R c) (h : DownInvIn R n e i) (hj0 : 0 < j) (hjn : j < n) (hji : (j - 1) / 2 = i)
    (hmin : ∀ c, 0 < c → c < n → (c - 1) / 2 = i → e j ≤ e c) (hle : e j ≤ e i) :
    DownInvIn R n (swapF e i j) j := by
  obtain ⟨ha, hb, hc⟩ := h
  have hij : i < j := by omega
  have hii : i ≠ j := by omega
  refine ⟨fun c hr h0 hn hcj hpj => ?_, fun c hr h0 hn hp hrj _ => ?_, fun _ _ _ => ?_⟩
  · by_cases hci : c = i
    · subst hci
      have hpi : (c - 1) / 2 ≠ c := by omega
      have := hb j (hcl j hj0 (by rw [hji]; exact hr)) hj0 hjn hji hr h0
      simp only [swapF, hcj, hpj, hpi, if_false, if_true]
      exact this
    · by_cases hpi : (c - 1) / 2 = i
      · have := hmin c h0 hn hpi
        simp only [swapF, hcj, hci, hpi, hii, if_false, if_true]
        exact this
      · have := ha c hr h0 hn hci hpi
        simp only [swapF, hcj, hci, hpj, hpi, if_false]
        exact this
  · have hcj : c ≠ j := by omega
    have hci : c ≠ i := by omega
    have := ha c hr h0 hn hci (by omega)
    rw [hp] at this
    simp only [swapF, hji, hcj, hci, hii, if_false, if_true]
    exact this
  · simp only [swapF, hji, hii, if_false, if_true]
    exact hle

/-- The loop of `siftdown_` on any heap: it ends, stays below `n`, moves the node downwards
only, and restores the order of the region `R` when only the edges at `i` were open. -/
theorem siftdownLoop_total (R : Nat → Prop) (hcl : ∀ c, 0 < c → R ((c - 1) / 2) → R c)
    (fuel : Nat) : ∀ (t : HeapTimer) (n i : Nat), i < n → n ≤ t.heap_.length →
    n - i ≤ fuel →
    ∃ i1 t1, siftdownLoop fuel t n i (i * 2 + 1) = .ok (i1, t1) ∧ i ≤ i1 ∧
      t1.heap_.Perm t.heap_ ∧
      (∀ k, k < i ∨ n ≤ k → t1.heap_[k]? = t.heap_[k]?) ∧
      t1.heap_[i1]? = t.heap_[i]? ∧ (i1 = i → t1 = t) ∧
      (DownInvIn R n (expAt t.heap_) i → HOrdIn R n (expAt t1.heap_)) := by
  induction fuel with
  | zero => intro t n i hi _ hf; omega
  | succ fuel ih =>
    intro t n i hi hn hf
    by_cases hj : i * 2 + 1 < n
    · obtain ⟨j1, hp1, hp2, hp3, hp4⟩ := pickChild_spec hj hn
      have hj1n : j1 < n := by omega
      have hj1p : (j1 - 1) / 2 = i := by omega
      have hmin : ∀ c, 0 < c → c < n → (c - 1) / 2 = i →
          expAt t.heap_ j1 ≤ expAt t.heap_ c := by
        intro c h0 hcn hcp
        have hc : c = i * 2 + 1 ∨ c = i * 2 + 1 + 1 := by omega
        rcases hc with hc | hc
        · rw [hc]; exact hp3
        · rw [hc]; exact hp4 (by omega)
      obtain ⟨x, hx1, hx2, hx3⟩ := rd_of_lt (Nat.lt_of_lt_of_le hi hn)
      obtain ⟨c, hc1, hc2, hc3⟩ := rd_of_lt (Nat.lt_of_lt_of_le hj1n hn)
      by_cases hlt : x.lt c = true
      · have hlt1 : expAt t.heap_ i < expAt t.heap_ j1 := by
          rw [hx3, hc3]; exact (lt_iff_expires x c).1 hlt
        refine ⟨i, t, ?_, le_refl _, List.Perm.refl _, fun _ _ => rfl, rfl, fun _ => rfl,
          fun hd => ?_⟩
        · simp [siftdownLoop, hj, hp1, hx2, hc2, hlt]
        · refine hordIn_of_downInvIn hd (fun c1 h0 hcn hcp => ?_)
          have := hmin c1 h0 hcn hcp
          omega
      · have hle : expAt t.heap_ j1 ≤ expAt t.heap_ i := by
          have : ¬ x.expires < c.expires := fun hh => hlt ((lt_iff_expires x c).2 hh)
          rw [hx3, hc3]; omega
        have hsw := SwapNode_eq hx1 hc1
        have hlen : (t.SwapNode_ i j1).heap_.length = t.heap_.length := by
          rw [hsw]; simp
        obtain ⟨i1, t1, e1, e2, e4, e5, e6, _, e8⟩ :=
          ih (t.SwapNode_ i j1) n j1 hj1n (by rw [hlen]; exact hn) (by omega)
        refine ⟨i1, t1, ?_, by omega, ?_, ?_, ?_, fun hh => by omega, fun hd => ?_⟩
        · simp [siftdownLoop, hj, hp1, hx2, hc2, hlt, e1]
        · refine e4.trans ?_
          rw [hsw]; exact perm_swap hx1 hc1
        · intro k hk
          rw [e5 k (by omega), hsw]
          simp only [getElem?_swap hx1 hc1 k]
          have h1 : k ≠ j1 := by omega
          have h2 : k ≠ i := by omega
          simp [h1, h2]
        · rw [e6, hsw]
          simp [getElem?_swap hx1 hc1 j1, hx1]
        · apply e8
          rw [hsw]
          simp only [expAt_swap hx1 hc1]
          exact downInvIn_step hcl hd (by omega) hj1n hj1p hmin hle
    · refine ⟨i, t, ?_, le_refl _, List.Perm.refl _, fun _ _ => rfl, rfl, fun _ => rfl,
        fun hd => ?_⟩
      · simp [siftdownLoop, hj]
      · exact hordIn_of_downInvIn hd (fun c h0 hcn hcp => by omega)

/-- C18: `siftdown_(index, n)` with `index < |heap|` and `n <= |heap|` returns on every heap;
it leaves the positions from `n` on alone, only permutes the nodes, returns `true` exactly
when the node that started at `index` ends at a strictly larger index, and returns `false`
only with `heap_` and `ref_` unchanged; when the edges strictly below `index` were in heap
order within the first `n` positions, all edges below `index` are so afterwards. -/
theorem siftdown_reports_move (t : HeapTimer) (index n : Nat) (hi : index < t.heap_.length)
    (hn : n ≤ t.heap_.length) :
    ∃ (moved : Bool) (t1 : HeapTimer) (i1 : Nat), t.siftdown_ index n = .ok (moved, t1) ∧
      (∀ k, n ≤ k → t1.heap_[k]? = t.heap_[k]?) ∧ t1.heap_.Perm t.heap_ ∧
      t1.heap_[i1]? = t.heap_[index]? ∧ (moved = true ↔ index < i1) ∧
      (moved = false → t1 = t) ∧
      ((∀ c, Below index c → c < n → (c - 1) / 2 ≠ index →
          expAt t.heap_ ((c - 1) / 2) ≤ expAt t.heap_ c) →
        ∀ c, Below index c → c < n → expAt t1.heap_ ((c - 1) / 2) ≤ expAt t1.heap_ c) := by
  by_cases hin : index < n
  · obtain ⟨i1, t1, e1, e2, e3, e4, e5, e6, e7⟩ :=
      siftdownLoop_total (Below index) (fun c h0 hb => Below.step c h0 hb) (n + 1) t n index
        hin hn (by omega)
    refine ⟨decide (index < i1), t1, i1, ?_, fun k hk => e4 k (Or.inr hk), e3, e5, by simp,
      fun hm => ?_, fun hsub c hb hcn => ?_⟩
    · simp [siftdown_, hi, hn, e1]
    · have : ¬ index < i1 := by simpa using hm
      exact e6 (by omega)
    · have hord := e7 ⟨fun c1 hb1 _ hcn1 _ hp1 => hsub c1 hb1 hcn1 hp1,
        fun _ _ _ _ _ hbb _ => absurd (below_lt hbb) (lt_irrefl _),
        fun hbb _ _ => absurd (below_lt hbb) (lt_irrefl _)⟩
      have hc0 : 0 < c := by have := below_lt hb; omega
      exact hord c hb hc0 hcn
  · refine ⟨false, t, index, ?_, fun _ _ => rfl, List.Perm.refl _, rfl, by simp [lt_irrefl],
      fun _ => rfl, fun _ c hb hcn => ?_⟩
    · have hj : ¬ index * 2 + 1 < n := by omega
      simp [siftdown_, hi, hn, siftdownLoop, hj]
    · have := below_lt hb
      omega

/-- A call that moves the root of three nodes down, and a call that moves nothing. -/
theorem siftdown_reports_move_witness :
    (0 < (⟨[⟨1, 30, 1⟩, ⟨2, 20, 2⟩, ⟨3, 10, 3⟩], [(1, 0), (2, 1), (3, 2)]⟩ :
        HeapTimer).heap_.length ∧
      3 ≤ (⟨[⟨1, 30, 1⟩, ⟨2, 20, 2⟩, ⟨3, 10, 3⟩], [(1, 0), (2, 1), (3, 2)]⟩ :
        HeapTimer).heap_.length) ∧
      (⟨[⟨1, 30, 1⟩, ⟨2, 20, 2⟩, ⟨3, 10, 3⟩], [(1, 0), (2, 1), (3, 2)]⟩ :
        HeapTimer).siftdown_ 0 3 =
        .ok (true, ⟨[⟨3, 10, 3⟩, ⟨2, 20, 2⟩, ⟨1, 30, 1⟩], [(1, 2), (2, 1), (3, 0)]⟩) ∧
      sample3.siftdown_ 0 3 = .ok (false, sample3) ∧
      ∃ (moved : Bool) (t1 : HeapTimer) (i1 : Nat), sample3.siftdown_ 0 3 = .ok (moved, t1) ∧
        (∀ k, 3 ≤ k → t1.heap_[k]? = sample3.heap_[k]?) ∧ t1.heap_.Perm sample3.heap_ ∧
        t1.heap_[i1]? = sample3.heap_[0]? ∧ (moved = true ↔ 0 < i1) ∧
        (moved = false → t1 = sample3) ∧
        ((∀ c, Below 0 c → c < 3 → (c - 1) / 2 ≠ 0 →
            expAt sample3.heap_ ((c - 1) / 2) ≤ expAt sample3.heap_ c) →
          ∀ c, Below 0 c → c < 3 → expAt t1.heap_ ((c - 1) / 2) ≤ expAt t1.heap_ c) :=
  ⟨⟨by decide, by decide⟩, rfl, rfl,
    siftdown_reports_move sample3 0 3 (by decide) (by decide)⟩

/-- C19: `add` with a negative id returns with `heap_` and `ref_` exactly as they were,
whatever the state, the timeout and the callback. -/
theorem add_of_negative_id_changes_nothing (t : HeapTimer) (tpm : Nat)
    (now id timeout : Int) (cb : Nat) (hid : id < 0) :
    t.add tpm now id timeout cb = .ok t := by
  simp [add, hid]

/-- The call `add(-1, 30, cb)` on two timers. -/
theorem add_of_negative_id_changes_nothing_witness :
    (-1 : Int) < 0 ∧ sample2.add 1 0 (-1) 30 9 = .ok sample2 :=
  ⟨by decide, add_of_negative_id_changes_nothing sample2 1 0 (-1) 30 9 (by decide)⟩

end HeapTimer

namespace BlockDeque

variable {α : Type}

/-- C13: a `pop` called after `close()` has completed does not return `false` at once: the
deque is empty, so both overloads enter the wait on `condConsumer_` before they look at
`IsClose_`, and only the code after the wait returns `false`; an item pushed after `close()`
is even handed out with `true`. -/
theorem pop_after_close_waits (s : BlockDeque α) (item : α) (timeout : Int) :
    s.close.pop item = .wait ∧ s.close.popT item timeout = .wait ∧
      s.close.popWake item = .done (false, item, s.close) ∧
      (0 < s.capacity_ → ∀ x,
        s.close.push_back x = .done ⟨[x], s.capacity_, true⟩ ∧
        (⟨[x], s.capacity_, true⟩ : BlockDeque α).pop item = .done (true, x, s.close)) := by
  refine ⟨rfl, rfl, rfl, fun hc x => ⟨?_, rfl⟩⟩
  have : ¬ s.capacity_ ≤ 0 := by omega
  simp [push_back, close, this]

/-- The default deque of the log with one record, closed and popped. -/
theorem pop_after_close_waits_witness :
    (⟨[7], 1000, false⟩ : BlockDeque Nat).close.pop 0 = .wait ∧
      (⟨[7], 1000, false⟩ : BlockDeque Nat).close.popT 0 3 = .wait :=
  ⟨(pop_after_close_waits ⟨[7], 1000, false⟩ 0 3).1,
    (pop_after_close_waits ⟨[7], 1000, false⟩ 0 3).2.1⟩

theorem afterPop_within_capacity {s s1 : BlockDeque α} {item : α}
    (h : s.deq_.length ≤ s.capacity_) (hs : afterPop (s.pop item) = some s1) :
    s1.deq_.length ≤ s1.capacity_ ∧ s1.capacity_ = s.capacity_ := by
  cases hd : s.deq_ with
  | nil => simp [pop, hd, afterPop] at hs
  | cons y q =>
    simp only [pop, hd, afterPop, Option.some.injEq] at hs
    subst hs
    rw [hd] at h
    simp only [List.length_cons] at h
    exact ⟨by show q.length ≤ s.capacity_; omega, rfl⟩

theorem popT_eq_pop (s : BlockDeque α) (item : α) (timeout : Int) :
    s.popT item timeout = s.pop item := rfl

theorem step_within_capacity {s s1 : BlockDeque α} {op : Op α}
    (h : s.deq_.length ≤ s.capacity_) (hs : step s op = some s1) :
    s1.deq_.length ≤ s1.capacity_ ∧ s1.capacity_ = s.capacity_ := by
  cases op with
  | push_back item =>
    by_cases hc : s.capacity_ ≤ s.deq_.length
    · simp [step, push_back, hc] at hs
    · simp only [step, push_back, hc, if_false, Option.some.injEq] at hs
      subst hs
      exact ⟨by
        show (s.deq_ ++ [item]).length ≤ s.capacity_
        simp only [List.length_append, List.length_singleton]; omega, rfl⟩
  | push_front item =>
    by_cases hc : s.capacity_ ≤ s.deq_.length
    · simp [step, push_front, hc] at hs
    · simp only [step, push_front, hc, if_false, Option.some.injEq] at hs
      subst hs
      exact ⟨by
        show (item :: s.deq_).length ≤ s.capacity_
        simp only [List.length_cons]; omega, rfl⟩
  | pop item => exact afterPop_within_capacity h hs
  | popWake item =>
    cases hcl : s.IsClose_ with
    | true =>
      simp only [step, popWake, hcl, if_true, afterPop, Option.some.injEq] at hs
      subst hs
      exact ⟨h, rfl⟩
    | false =>
      have hs1 : afterPop (s.pop item) = some s1 := by
        simpa [step, popWake, hcl] using hs
      exact afterPop_within_capacity h hs1
  | popT item timeout =>
    exact @afterPop_within_capacity α s s1 item h hs
  | popTWake item timeout timedOut =>
    cases hto : timedOut with
    | true =>
      simp only [step, popTWake, hto, if_true, afterPop, Option.some.injEq] at hs
      subst hs
      exact ⟨h, rfl⟩
    | false =>
      cases hcl : s.IsClose_ with
      | true =>
        simp only [step, popTWake, hto, hcl, if_true, afterPop] at hs
        simp only [Bool.false_eq_true, if_false, Option.some.injEq] at hs
        subst hs
        exact ⟨h, rfl⟩
      | false =>
        have hs1 : afterPop (s.pop item) = some s1 := by
          simpa [step, popTWake, hto, hcl, popT_eq_pop] using hs
        exact afterPop_within_capacity h hs1
  | clear =>
    simp only [step, clear, Option.some.injEq] at hs
    subst hs
    exact ⟨Nat.zero_le _, rfl⟩
  | close =>
    simp only [step, close, Option.some.injEq] at hs
    subst hs
    exact ⟨Nat.zero_le _, rfl⟩

theorem run_within_capacity (ops : List (Op α)) : ∀ (s s1 : BlockDeque α),
    s.deq_.length ≤ s.capacity_ → run s ops = some s1 →
    s1.deq_.length ≤ s1.capacity_ ∧ s1.capacity_ = s.capacity_ := by
  induction ops with
  | nil =>
    intro s s1 h hr
    simp only [run, Option.some.injEq] at hr
    subst hr
    exact ⟨h, rfl⟩
  | cons op ops ih =>
    intro s s1 h hr
    simp only [run] at hr
    cases hs : step s op with
    | none => simp [hs] at hr
    | some s2 =>
      simp only [hs] at hr
      obtain ⟨h1, h2⟩ := step_within_capacity h hs
      obtain ⟨h3, h4⟩ := ih s2 s1 h1 hr
      exact ⟨h3, h4.trans h2⟩

/-- C14: a `BlockDeque` constructed with `MaxCapacity > 0` never holds more than `capacity_`
items after any sequence of completed `push_back`, `push_front`, `pop`, `clear` and `close`
calls; a push inserts its item exactly when `size < capacity_` and otherwise waits (the
state is not touched), and `full()` is `true` exactly when `size >= capacity_`. -/
theorem blockDeque_within_capacity (MaxCapacity : Nat) (s0 : BlockDeque α)
    (hinit : init MaxCapacity = some s0) :
    0 < MaxCapacity ∧
      (∀ ops s, run s0 ops = some s →
        s.deq_.length ≤ s.capacity_ ∧ s.capacity_ = MaxCapacity) ∧
      (∀ (s : BlockDeque α) x,
        (s.deq_.length < s.capacity_ →
          s.push_back x = .done ⟨s.deq_ ++ [x], s.capacity_, s.IsClose_⟩ ∧
          s.push_front x = .done ⟨x :: s.deq_, s.capacity_, s.IsClose_⟩) ∧
        (s.capacity_ ≤ s.deq_.length → s.push_back x = .wait ∧ s.push_front x = .wait)) ∧
      ∀ s : BlockDeque α, s.full = true ↔ s.capacity_ ≤ s.size := by
  have hpos : 0 < MaxCapacity := by
    by_contra hc
    simp [init, hc] at hinit
  simp only [init, hpos, if_true, Option.some.injEq] at hinit
  subst hinit
  refine ⟨hpos, fun ops s hr => ?_, fun s x => ⟨fun hlt => ?_, fun hge => ?_⟩, fun s => ?_⟩
  · exact run_within_capacity ops _ s (Nat.zero_le _) hr
  · have : ¬ s.capacity_ ≤ s.deq_.length := by omega
    simp [push_back, push_front, this]
  · simp [push_back, push_front, hge]
  · simp [full, size]

/-- A deque of capacity 2: two pushes complete, the third waits, a pop makes room again. -/
theorem blockDeque_within_capacity_witness :
    (init 2 = some (⟨[], 2, false⟩ : BlockDeque Nat)) ∧
      run (⟨[], 2, false⟩ : BlockDeque Nat)
        [.push_back 1, .push_front 2, .pop 0, .push_back 3] = some ⟨[1, 3], 2, false⟩ ∧
      run (⟨[], 2, false⟩ : BlockDeque Nat) [.push_back 1, .push_front 2, .push_back 3] =
        none ∧
      (⟨[1, 3], 2, false⟩ : BlockDeque Nat).deq_.length ≤ 2 :=
  ⟨rfl, rfl, rfl,
    by
      have h := ((blockDeque_within_capacity 2 (⟨[], 2, false⟩ : BlockDeque Nat) rfl).2.1
        [.push_back 1, .push_front 2, .pop 0, .push_back 3] ⟨[1, 3], 2, false⟩ rfl).1
      exact h⟩

theorem run_push_back (xs : List α) : ∀ (s : BlockDeque α),
    s.deq_.length + xs.length ≤ s.capacity_ →
    run s (xs.map Op.push_back) = some ⟨s.deq_ ++ xs, s.capacity_, s.IsClose_⟩ := by
  induction xs with
  | nil => intro s _; simp [run]
  | cons x xs ih =>
    intro s h
    simp only [List.length_cons] at h
    have hc : ¬ s.capacity_ ≤ s.deq_.length := by omega
    simp only [List.map_cons, run, step, push_back, hc, if_false]
    rw [ih ⟨s.deq_ ++ [x], s.capacity_, s.IsClose_⟩ (by
      simp only [List.length_append, List.length_singleton]; omega)]
    simp

theorem popN_all (item : α) (xs : List α) : ∀ (cap : Nat) (c : Bool),
    popN item xs.length (⟨xs, cap, c⟩ : BlockDeque α) = some (xs, ⟨[], cap, c⟩) := by
  induction xs with
  | nil => intro cap c; rfl
  | cons x xs ih =>
    intro cap c
    simp only [List.length_cons, popN, pop, ih cap c]

/-- C15: `push_back(x)` on contents `q` with `|q| < capacity_` completes with contents
`q ++ [x]`; `pop(item)` on contents `y :: q` returns `true` with `item = y` and leaves `q`;
hence the items of a list pushed into an empty deque that has room for them come back from
as many pops in the order in which they were pushed. -/
theorem blockDeque_fifo (s : BlockDeque α) (item : α) :
    (∀ x, s.deq_.length < s.capacity_ →
        s.push_back x = .done ⟨s.deq_ ++ [x], s.capacity_, s.IsClose_⟩) ∧
      (∀ y q, s.deq_ = y :: q → s.pop item = .done (true, y, ⟨q, s.capacity_, s.IsClose_⟩)) ∧
      ∀ (xs : List α) (cap : Nat), xs.length ≤ cap →
        run (⟨[], cap, false⟩ : BlockDeque α) (xs.map Op.push_back) =
            some ⟨xs, cap, false⟩ ∧
          popN item xs.length (⟨xs, cap, false⟩ : BlockDeque α) =
            some (xs, ⟨[], cap, false⟩) := by
  refine ⟨fun x hlt => ?_, fun y q hd => ?_, fun xs cap hle => ⟨?_, popN_all item xs cap false⟩⟩
  · have : ¬ s.capacity_ ≤ s.deq_.length := by omega
    simp [push_back, this]
  · simp [pop, hd]
  · have := run_push_back xs (⟨[], cap, false⟩ : BlockDeque α) (by simpa using hle)
    simpa using this

/-- Three records pushed into a deque of capacity 3 and popped again. -/
theorem blockDeque_fifo_witness :
    ((⟨[4], 3, false⟩ : BlockDeque Nat).deq_.length < 3 ∧ [5, 6, 7].length ≤ 3) ∧
      (⟨[4], 3, false⟩ : BlockDeque Nat).push_back 9 = .done ⟨[4, 9], 3, false⟩ ∧
      (⟨[4], 3, false⟩ : BlockDeque Nat).pop 0 = .done (true, 4, ⟨[], 3, false⟩) ∧
      run (⟨[], 3, false⟩ : BlockDeque Nat) [.push_back 5, .push_back 6, .push_back 7] =
        some ⟨[5, 6, 7], 3, false⟩ ∧
      popN 0 3 (⟨[5, 6, 7], 3, false⟩ : BlockDeque Nat) = some ([5, 6, 7], ⟨[], 3, false⟩) :=
  ⟨⟨by decide, by decide⟩,
    (blockDeque_fifo (⟨[4], 3, false⟩ : BlockDeque Nat) 0).1 9 (by decide),
    (blockDeque_fifo (⟨[4], 3, false⟩ : BlockDeque Nat) 0).2.1 4 [] rfl,
    ((blockDeque_fifo (⟨[4], 3, false⟩ : BlockDeque Nat) 0).2.2 [5, 6, 7] 3 (by decide)).1,
    ((blockDeque_fifo (⟨[4], 3, false⟩ : BlockDeque Nat) 0).2.2 [5, 6, 7] 3 (by decide)).2⟩

end BlockDeque

namespace ThreadPool

end ThreadPool
